import Mathlib

/-!
Shallow embedding of the `arena` limit order book
(src/include/arena/base_book_map.hpp and src/include/arena/base_book_vector.hpp).

Machine integers: `id` is `uint64_t` and `price`/`amount` are `int64_t` in the
source, but the code performs no arithmetic on them — only equality tests and
order comparisons — so `Nat` and `Int` model them exactly (no overflow is
reachable).

The store `orders_` is a `std::unordered_map<uint64_t, order>`; iteration
order is never observed, only `find` / `contains` / `emplace` / `erase` and
in-place value assignment, so an association list with those operations is a
faithful model (keys are unique in every state the C++ object can be in, and
the operations below agree with the C++ ones on unique-key lists).

The bid and ask books of the map variant are `std::map<int64_t, uint64_t>`
with comparators `greater` / `less`: sorted unique-key association lists with
an ordered `emplace` (insert only if the key is absent).  `equal_range` over a
unique-key map holds at most one entry, so the erase loop of
`remove_from_book` is modelled by a scan removing the (price, id) entry.
-/

namespace Arena

structure Order where
  id : Nat
  price : Int
  amount : Int
deriving DecidableEq, Repr

/-- The source's `is_bid(amount) = amount > 0`. -/
def is_bid (amount : Int) : Bool := decide (0 < amount)

/-! ### Order store: association list with unordered_map operations -/

def lookupStore : List (Nat × Order) → Nat → Option Order
  | [], _ => none
  | (k, o) :: rest, i => if k = i then some o else lookupStore rest i

def containsStore (l : List (Nat × Order)) (i : Nat) : Bool :=
  (lookupStore l i).isSome

def emplaceStore (l : List (Nat × Order)) (i : Nat) (o : Order) : List (Nat × Order) :=
  if containsStore l i then l else l ++ [(i, o)]

def eraseStore : List (Nat × Order) → Nat → List (Nat × Order)
  | [], _ => []
  | (k, o) :: rest, i => if k = i then eraseStore rest i else (k, o) :: eraseStore rest i

def replaceStore : List (Nat × Order) → Nat → Order → List (Nat × Order)
  | [], _, _ => []
  | (k, o') :: rest, i, o =>
    if k = i then (i, o) :: replaceStore rest i o else (k, o') :: replaceStore rest i o

/-! ### Ordered price index (map variant)

`cmp a b = true` means price `a` is strictly better than price `b` on the
given side: for bids `b < a` (descending map), for asks `a < b` (ascending
map). -/

def bidBefore (a b : Int) : Bool := decide (b < a)

def askBefore (a b : Int) : Bool := decide (a < b)

/-- `std::map::emplace`: insert keeping sorted order, no-op if the key exists. -/
def emplaceBy (cmp : Int → Int → Bool) (p : Int) (i : Nat) :
    List (Int × Nat) → List (Int × Nat)
  | [] => [(p, i)]
  | (q, j) :: rest =>
    if cmp p q then (p, i) :: (q, j) :: rest
    else if p = q then (q, j) :: rest
    else (q, j) :: emplaceBy cmp p i rest

/-- The erase loop of `remove_from_book`: erase the entry `(p, i)` if present
(`equal_range` of a unique-key `std::map` holds at most one entry). -/
def removeKeyId (p : Int) (i : Nat) : List (Int × Nat) → Option (List (Int × Nat))
  | [] => none
  | (q, j) :: rest =>
    if q = p ∧ j = i then some rest
    else (removeKeyId p i rest).map (fun l => (q, j) :: l)

/-! ### The map-variant book (`base_book_map`) -/

structure MapBook where
  orders : List (Nat × Order)
  bids : List (Int × Nat)
  asks : List (Int × Nat)
deriving DecidableEq, Repr

namespace MapBook

def empty : MapBook := ⟨[], [], []⟩

/-- `base_book_map::add_to_book` (always reports success). -/
def add_to_book (b : MapBook) (v : Order) : Bool × MapBook :=
  if is_bid v.amount then
    (true, { b with bids := emplaceBy bidBefore v.price v.id b.bids })
  else
    (true, { b with asks := emplaceBy askBefore v.price v.id b.asks })

/-- `base_book_map::remove_from_book`: `none` models returning `false`
without mutation. -/
def remove_from_book (b : MapBook) (v : Order) : Option MapBook :=
  if is_bid v.amount then
    (removeKeyId v.price v.id b.bids).map (fun l => { b with bids := l })
  else
    (removeKeyId v.price v.id b.asks).map (fun l => { b with asks := l })

/-- `base_book_map::place`. -/
def place (b : MapBook) (v : Order) : Bool × MapBook :=
  if v.amount = 0 ∨ containsStore b.orders v.id then (false, b)
  else
    let b1 : MapBook := { b with orders := emplaceStore b.orders v.id v }
    let r := b1.add_to_book v
    if r.1 then (true, r.2)
    else (false, { r.2 with orders := eraseStore r.2.orders v.id })

/-- `base_book_map::cancel`. -/
def cancel (b : MapBook) (i : Nat) : Bool × MapBook :=
  match lookupStore b.orders i with
  | none => (false, b)
  | some v =>
    match b.remove_from_book v with
    | none => (false, b)
    | some b2 => (true, { b2 with orders := eraseStore b2.orders i })

/-- `base_book_map::modify`. -/
def modify (b : MapBook) (v : Order) : Bool × MapBook :=
  if v.amount = 0 then b.cancel v.id
  else
    match lookupStore b.orders v.id with
    | none => (false, b)
    | some previous =>
      if is_bid previous.amount = is_bid v.amount ∧ previous.price = v.price then
        (true, { b with orders := replaceStore b.orders v.id v })
      else
        match b.remove_from_book previous with
        | none => (false, b)
        | some b2 =>
          let b3 : MapBook := { b2 with orders := replaceStore b2.orders v.id v }
          let r := b3.add_to_book v
          if r.1 then (true, r.2)
          else
            let b5 : MapBook := { r.2 with orders := replaceStore r.2.orders v.id previous }
            (false, (b5.add_to_book previous).2)

/-- `base_book_map::best_from_book`. -/
def best_from_book (orders : List (Nat × Order)) : List (Int × Nat) → Option Order
  | [] => none
  | (_, i) :: _ => lookupStore orders i

def best_bid (b : MapBook) : Option Order := best_from_book b.orders b.bids

def best_ask (b : MapBook) : Option Order := best_from_book b.orders b.asks

end MapBook

/-! ### The vector-variant book (`base_book_vector`) -/

structure PriceLevel where
  price : Int
  ids : List Nat
deriving DecidableEq, Repr

/-- `remove_id_from_level`: find the first position holding `id`, overwrite it
with the back element, pop the back; `none` models returning `false`. -/
def swapRemove : List Nat → Nat → Option (List Nat)
  | [], _ => none
  | x :: rest, i =>
    if x = i then
      match rest with
      | [] => some []
      | y :: t => some ((y :: t).getLast (List.cons_ne_nil y t) :: (y :: t).dropLast)
    else (swapRemove rest i).map (fun l => x :: l)

/-- `ensure_*_level` followed by `ids.push_back(id)`: `lower_bound` skips the
levels that come strictly before price `p`, then either extends the level at
`p` or inserts a fresh level there. -/
def addLevelBy (cmp : Int → Int → Bool) (p : Int) (i : Nat) :
    List PriceLevel → List PriceLevel
  | [] => [⟨p, [i]⟩]
  | l :: rest =>
    if cmp l.price p then l :: addLevelBy cmp p i rest
    else if l.price = p then ⟨l.price, l.ids ++ [i]⟩ :: rest
    else ⟨p, [i]⟩ :: l :: rest

/-- `find_*_level` + `remove_id_from_level` + erase-level-if-empty, as done
inside `base_book_vector::cancel`; `none` models the failure paths. -/
def removeFromLevelsBy (cmp : Int → Int → Bool) (p : Int) (i : Nat) :
    List PriceLevel → Option (List PriceLevel)
  | [] => none
  | l :: rest =>
    if cmp l.price p then (removeFromLevelsBy cmp p i rest).map (fun t => l :: t)
    else if l.price = p then
      match swapRemove l.ids i with
      | none => none
      | some [] => some rest
      | some ids2 => some (⟨l.price, ids2⟩ :: rest)
    else none

structure VecBook where
  orders : List (Nat × Order)
  bids : List PriceLevel
  asks : List PriceLevel
deriving DecidableEq, Repr

namespace VecBook

def empty : VecBook := ⟨[], [], []⟩

/-- `base_book_vector::place`. -/
def place (b : VecBook) (v : Order) : Bool × VecBook :=
  if v.amount = 0 ∨ containsStore b.orders v.id then (false, b)
  else if is_bid v.amount then
    (true, { b with bids := addLevelBy bidBefore v.price v.id b.bids,
                    orders := emplaceStore b.orders v.id v })
  else
    (true, { b with asks := addLevelBy askBefore v.price v.id b.asks,
                    orders := emplaceStore b.orders v.id v })

/-- `base_book_vector::cancel`. -/
def cancel (b : VecBook) (i : Nat) : Bool × VecBook :=
  match lookupStore b.orders i with
  | none => (false, b)
  | some current =>
    if is_bid current.amount then
      match removeFromLevelsBy bidBefore current.price i b.bids with
      | none => (false, b)
      | some bids2 => (true, { b with bids := bids2, orders := eraseStore b.orders i })
    else
      match removeFromLevelsBy askBefore current.price i b.asks with
      | none => (false, b)
      | some asks2 => (true, { b with asks := asks2, orders := eraseStore b.orders i })

/-- `base_book_vector::modify`. -/
def modify (b : VecBook) (v : Order) : Bool × VecBook :=
  if v.amount = 0 then b.cancel v.id
  else if containsStore b.orders v.id then
    match b.cancel v.id with
    | (false, b2) => (false, b2)
    | (true, b2) => b2.place v
  else (false, b)

/-- `base_book_vector::best_from_levels`. -/
def best_from_levels (orders : List (Nat × Order)) : List PriceLevel → Option Order
  | [] => none
  | l :: _ =>
    match l.ids with
    | [] => none
    | i :: _ => lookupStore orders i

def best_bid (b : VecBook) : Option Order := best_from_levels b.orders b.bids

def best_ask (b : VecBook) : Option Order := best_from_levels b.orders b.asks

end VecBook

/-! ### Operation sequences and reachability -/

inductive BookOp where
  | place (o : Order)
  | modify (o : Order)
  | cancel (i : Nat)
deriving DecidableEq, Repr

def MapBook.step (b : MapBook) : BookOp → MapBook
  | .place o => (b.place o).2
  | .modify o => (b.modify o).2
  | .cancel i => (b.cancel i).2

def MapBook.runOps (b : MapBook) (ops : List BookOp) : MapBook :=
  ops.foldl MapBook.step b

inductive MapBook.Reachable : MapBook → Prop
  | empty : MapBook.Reachable MapBook.empty
  | step (b : MapBook) (op : BookOp) : MapBook.Reachable b → MapBook.Reachable (b.step op)

def VecBook.step (b : VecBook) : BookOp → VecBook
  | .place o => (b.place o).2
  | .modify o => (b.modify o).2
  | .cancel i => (b.cancel i).2

def VecBook.runOps (b : VecBook) (ops : List BookOp) : VecBook :=
  ops.foldl VecBook.step b

inductive VecBook.Reachable : VecBook → Prop
  | empty : VecBook.Reachable VecBook.empty
  | step (b : VecBook) (op : BookOp) : VecBook.Reachable b → VecBook.Reachable (b.step op)

/-- States built by place calls only (property P1 quantifies over these). -/
def MapBook.runPlaces (l : List Order) : MapBook :=
  l.foldl (fun b o => (b.place o).2) MapBook.empty

def VecBook.runPlaces (l : List Order) : VecBook :=
  l.foldl (fun b o => (b.place o).2) VecBook.empty

/-! ### Lemmas about the order store -/

theorem lookupStore_eq_none_iff {l : List (Nat × Order)} {i : Nat} :
    lookupStore l i = none ↔ ∀ o : Order, (i, o) ∉ l := by
  induction l with
  | nil => simp [lookupStore]
  | cons e rest ih =>
    obtain ⟨k, o⟩ := e
    by_cases h : k = i
    · subst h
      simp only [lookupStore, if_pos rfl]
      constructor
      · intro hc
        cases hc
      · intro hall
        exact absurd (List.mem_cons_self _ _) (hall o)
    · simp only [lookupStore, if_neg h, ih]
      constructor
      · intro hall o hmem
        rcases List.mem_cons.1 hmem with heq | hmem'
        · exact h (by injection heq with h1 h2; exact h1.symm)
        · exact hall o hmem'
      · intro hall o hmem
        exact hall o (List.mem_cons_of_mem _ hmem)

theorem lookupStore_mem {l : List (Nat × Order)} {i : Nat} {o : Order}
    (h : lookupStore l i = some o) : (i, o) ∈ l := by
  induction l with
  | nil => simp [lookupStore] at h
  | cons e rest ih =>
    obtain ⟨k, o'⟩ := e
    by_cases hk : k = i
    · subst hk
      simp [lookupStore] at h
      subst h
      exact List.mem_cons_self _ _
    · simp only [lookupStore, if_neg hk] at h
      exact List.mem_cons_of_mem _ (ih h)

theorem lookupStore_append (l1 l2 : List (Nat × Order)) (i : Nat) :
    lookupStore (l1 ++ l2) i =
      (match lookupStore l1 i with
       | some o => some o
       | none => lookupStore l2 i) := by
  induction l1 with
  | nil => simp [lookupStore]
  | cons e rest ih =>
    obtain ⟨k, o⟩ := e
    by_cases hk : k = i
    · simp [lookupStore, hk]
    · simp [lookupStore, hk, ih]

theorem lookupStore_append_self {l : List (Nat × Order)} {i : Nat} (o : Order)
    (h : lookupStore l i = none) : lookupStore (l ++ [(i, o)]) i = some o := by
  rw [lookupStore_append, h]
  simp [lookupStore]

theorem lookupStore_append_of_ne {l : List (Nat × Order)} {i j : Nat} (o : Order)
    (h : j ≠ i) : lookupStore (l ++ [(i, o)]) j = lookupStore l j := by
  rw [lookupStore_append]
  cases hl : lookupStore l j with
  | some o' => rfl
  | none =>
    have hij : ¬(i = j) := fun hc => h hc.symm
    simp [lookupStore, hij]

theorem lookupStore_erase_self (l : List (Nat × Order)) (i : Nat) :
    lookupStore (eraseStore l i) i = none := by
  induction l with
  | nil => rfl
  | cons e rest ih =>
    obtain ⟨k, o⟩ := e
    by_cases hk : k = i
    · simpa [eraseStore, hk] using ih
    · simpa [eraseStore, lookupStore, hk] using ih

theorem lookupStore_erase_ne {l : List (Nat × Order)} {i j : Nat} (h : j ≠ i) :
    lookupStore (eraseStore l i) j = lookupStore l j := by
  induction l with
  | nil => rfl
  | cons e rest ih =>
    obtain ⟨k, o⟩ := e
    by_cases hk : k = i
    · subst hk
      have hij : ¬(k = j) := fun hc => h hc.symm
      simpa [eraseStore, lookupStore, hij] using ih
    · by_cases hkj : k = j
      · have hij : ¬(j = i) := h
        simp [eraseStore, lookupStore, hk, hkj, hij]
      · simpa [eraseStore, lookupStore, hk, hkj] using ih

theorem eraseStore_append_fresh {l : List (Nat × Order)} {i : Nat} (o : Order)
    (h : lookupStore l i = none) : eraseStore (l ++ [(i, o)]) i = l := by
  induction l with
  | nil => simp [eraseStore]
  | cons e rest ih =>
    obtain ⟨k, o'⟩ := e
    by_cases hk : k = i
    · simp [lookupStore, hk] at h
    · simp only [lookupStore, if_neg hk] at h
      simp [eraseStore, hk, ih h]

theorem lookupStore_replace_self {l : List (Nat × Order)} {i : Nat} {o0 : Order}
    (h : lookupStore l i = some o0) (o : Order) :
    lookupStore (replaceStore l i o) i = some o := by
  induction l with
  | nil => simp [lookupStore] at h
  | cons e rest ih =>
    obtain ⟨k, o'⟩ := e
    by_cases hk : k = i
    · simp [replaceStore, lookupStore, hk]
    · simp only [lookupStore, if_neg hk] at h
      simpa [replaceStore, lookupStore, hk] using ih h

theorem lookupStore_replace_ne {l : List (Nat × Order)} {i j : Nat} (o : Order)
    (h : j ≠ i) : lookupStore (replaceStore l i o) j = lookupStore l j := by
  induction l with
  | nil => rfl
  | cons e rest ih =>
    obtain ⟨k, o'⟩ := e
    by_cases hk : k = i
    · have hij : ¬(i = j) := fun hc => h hc.symm
      simpa [replaceStore, lookupStore, hk, hij] using ih
    · by_cases hkj : k = j
      · have hij : ¬(j = i) := h
        simp [replaceStore, lookupStore, hk, hkj, hij]
      · simpa [replaceStore, lookupStore, hk, hkj] using ih

/-! ### Lemmas about the ordered price index (map variant) -/

theorem mem_emplaceBy {cmp : Int → Int → Bool} {p : Int} {i : Nat}
    {l : List (Int × Nat)} {x : Int × Nat} (h : x ∈ emplaceBy cmp p i l) :
    x ∈ l ∨ x = (p, i) := by
  induction l with
  | nil =>
    simp [emplaceBy] at h
    exact Or.inr h
  | cons e rest ih =>
    obtain ⟨q, j⟩ := e
    by_cases h1 : cmp p q
    · simp only [emplaceBy, if_pos h1] at h
      rcases List.mem_cons.1 h with heq | hmem
      · exact Or.inr heq
      · exact Or.inl hmem
    · by_cases h2 : p = q
      · simp only [emplaceBy, if_neg h1, if_pos h2] at h
        exact Or.inl h
      · simp only [emplaceBy, if_neg h1, if_neg h2] at h
        rcases List.mem_cons.1 h with heq | hmem
        · exact Or.inl (heq ▸ List.mem_cons_self _ _)
        · rcases ih hmem with hl | hr
          · exact Or.inl (List.mem_cons_of_mem _ hl)
          · exact Or.inr hr

theorem emplaceBy_mem {cmp : Int → Int → Bool} {p : Int} {i : Nat}
    {l : List (Int × Nat)} {x : Int × Nat} (h : x ∈ l) :
    x ∈ emplaceBy cmp p i l := by
  induction l with
  | nil => cases h
  | cons e rest ih =>
    obtain ⟨q, j⟩ := e
    by_cases h1 : cmp p q
    · simp only [emplaceBy, if_pos h1]
      exact List.mem_cons_of_mem _ h
    · by_cases h2 : p = q
      · simpa only [emplaceBy, if_neg h1, if_pos h2] using h
      · simp only [emplaceBy, if_neg h1, if_neg h2]
        rcases List.mem_cons.1 h with heq | hmem
        · exact heq ▸ List.mem_cons_self _ _
        · exact List.mem_cons_of_mem _ (ih hmem)

theorem emplaceBy_key_mem (cmp : Int → Int → Bool) (p : Int) (i : Nat)
    (l : List (Int × Nat)) : ∃ j, (p, j) ∈ emplaceBy cmp p i l := by
  induction l with
  | nil => exact ⟨i, by simp [emplaceBy]⟩
  | cons e rest ih =>
    obtain ⟨q, j⟩ := e
    by_cases h1 : cmp p q
    · exact ⟨i, by simp [emplaceBy, if_pos h1]⟩
    · by_cases h2 : p = q
      · refine ⟨j, ?_⟩
        simp only [emplaceBy, if_neg h1, if_pos h2]
        rw [← h2]
        exact List.mem_cons_self _ _
      · obtain ⟨j', hj'⟩ := ih
        exact ⟨j', by simp only [emplaceBy, if_neg h1, if_neg h2]; exact List.mem_cons_of_mem _ hj'⟩

theorem emplaceBy_pairwise {cmp : Int → Int → Bool}
    (htrans : ∀ a b c, cmp a b = true → cmp b c = true → cmp a c = true)
    (htotal : ∀ a b, cmp a b = false → cmp b a = false → a = b)
    {p : Int} (i : Nat) {l : List (Int × Nat)}
    (hs : l.Pairwise (fun a b => cmp a.1 b.1 = true)) :
    (emplaceBy cmp p i l).Pairwise (fun a b => cmp a.1 b.1 = true) := by
  induction l with
  | nil => simp [emplaceBy]
  | cons e rest ih =>
    obtain ⟨q, j⟩ := e
    rcases List.pairwise_cons.1 hs with ⟨hhead, hrest⟩
    by_cases h1 : cmp p q
    · simp only [emplaceBy, if_pos h1]
      refine List.pairwise_cons.2 ⟨?_, hs⟩
      intro x hx
      rcases List.mem_cons.1 hx with heq | hmem
      · exact heq ▸ h1
      · exact htrans p q x.1 h1 (hhead x hmem)
    · by_cases h2 : p = q
      · simpa only [emplaceBy, if_neg h1, if_pos h2] using hs
      · simp only [emplaceBy, if_neg h1, if_neg h2]
        refine List.pairwise_cons.2 ⟨?_, ih hrest⟩
        intro x hx
        rcases mem_emplaceBy hx with hmem | heq
        · exact hhead x hmem
        · subst heq
          by_cases hqp : cmp q p
          · exact hqp
          · exact absurd (htotal p q (by simp [h1]) (by simp [hqp])) h2

theorem emplaceBy_of_key_found {cmp : Int → Int → Bool}
    (hasym : ∀ a b, cmp a b = true → cmp b a = false)
    {p : Int} (i : Nat) {l : List (Int × Nat)}
    (hs : l.Pairwise (fun a b => cmp a.1 b.1 = true))
    {j0 : Nat} (hmem : (p, j0) ∈ l) :
    emplaceBy cmp p i l = l := by
  induction l with
  | nil => cases hmem
  | cons e rest ih =>
    obtain ⟨q, j⟩ := e
    rcases List.pairwise_cons.1 hs with ⟨hhead, hrest⟩
    by_cases h1 : cmp p q
    · exfalso
      rcases List.mem_cons.1 hmem with heq | hmem'
      · have hpq : p = q := congrArg Prod.fst heq
        subst hpq
        exact absurd h1 (by simpa using hasym p p h1)
      · have := hhead _ hmem'
        exact absurd h1 (by simpa using hasym q p this)
    · by_cases h2 : p = q
      · simp only [emplaceBy, if_neg h1, if_pos h2]
      · simp only [emplaceBy, if_neg h1, if_neg h2, List.cons.injEq, true_and]
        apply ih hrest
        rcases List.mem_cons.1 hmem with heq | hmem'
        · exact absurd (congrArg Prod.fst heq) h2
        · exact hmem'

theorem emplaceBy_of_key_absent {cmp : Int → Int → Bool} {p : Int} (i : Nat)
    {l : List (Int × Nat)} (habs : ∀ j, (p, j) ∉ l) :
    ∃ l1 l2, l = l1 ++ l2 ∧ emplaceBy cmp p i l = l1 ++ (p, i) :: l2 ∧
      ∀ e ∈ l1, e.1 ≠ p := by
  induction l with
  | nil => exact ⟨[], [], rfl, by simp [emplaceBy], by simp⟩
  | cons e rest ih =>
    obtain ⟨q, j⟩ := e
    by_cases h1 : cmp p q
    · exact ⟨[], (q, j) :: rest, rfl, by simp [emplaceBy, if_pos h1], by simp⟩
    · by_cases h2 : p = q
      · exact absurd (h2 ▸ List.mem_cons_self _ _) (habs j)
      · have habs' : ∀ j', (p, j') ∉ rest := fun j' hc => habs j' (List.mem_cons_of_mem _ hc)
        obtain ⟨l1, l2, heq, hres, hne⟩ := ih habs'
        refine ⟨(q, j) :: l1, l2, by rw [heq]; rfl, ?_, ?_⟩
        · simp only [emplaceBy, if_neg h1, if_neg h2, hres]
          rfl
        · intro x hx
          rcases List.mem_cons.1 hx with hxe | hxm
          · subst hxe
            exact fun hc => h2 hc.symm
          · exact hne x hxm

theorem removeKeyId_eq_none_iff {p : Int} {i : Nat} {l : List (Int × Nat)} :
    removeKeyId p i l = none ↔ (p, i) ∉ l := by
  induction l with
  | nil => simp [removeKeyId]
  | cons e rest ih =>
    obtain ⟨q, j⟩ := e
    by_cases h1 : q = p ∧ j = i
    · obtain ⟨hq, hj⟩ := h1
      subst hq; subst hj
      simp [removeKeyId]
    · simp only [removeKeyId, if_neg h1]
      constructor
      · intro hnone hmem
        rcases List.mem_cons.1 hmem with heq | hmem'
        · exact h1 ⟨(congrArg Prod.fst heq).symm, (congrArg Prod.snd heq).symm⟩
        · cases hrec : removeKeyId p i rest with
          | none => exact (ih.1 hrec) hmem'
          | some l' => rw [hrec] at hnone; cases hnone
      · intro hnmem
        have : (p, i) ∉ rest := fun hc => hnmem (List.mem_cons_of_mem _ hc)
        rw [ih.2 this]
        rfl

theorem removeKeyId_spec {p : Int} {i : Nat} {l l' : List (Int × Nat)}
    (h : removeKeyId p i l = some l') :
    ∃ l1 l2, l = l1 ++ (p, i) :: l2 ∧ l' = l1 ++ l2 ∧ (p, i) ∉ l1 := by
  induction l generalizing l' with
  | nil => simp [removeKeyId] at h
  | cons e rest ih =>
    obtain ⟨q, j⟩ := e
    by_cases h1 : q = p ∧ j = i
    · simp only [removeKeyId, if_pos h1, Option.some.injEq] at h
      refine ⟨[], rest, ?_, ?_, by simp⟩
      · simp [h1.1, h1.2]
      · simp [h]
    · simp only [removeKeyId, if_neg h1] at h
      cases hrec : removeKeyId p i rest with
      | none => rw [hrec] at h; cases h
      | some t =>
        rw [hrec] at h
        simp only [Option.map_some', Option.some.injEq] at h
        obtain ⟨l1, l2, heq, ht, hnm⟩ := ih hrec
        subst h
        refine ⟨(q, j) :: l1, l2, by rw [heq]; rfl, by rw [ht]; rfl, ?_⟩
        intro hc
        rcases List.mem_cons.1 hc with heq' | hm
        · exact h1 ⟨(congrArg Prod.fst heq').symm, (congrArg Prod.snd heq').symm⟩
        · exact hnm hm

theorem removeKeyId_compute {p : Int} {i : Nat} (l1 l2 : List (Int × Nat))
    (h : ∀ e ∈ l1, ¬(e.1 = p ∧ e.2 = i)) :
    removeKeyId p i (l1 ++ (p, i) :: l2) = some (l1 ++ l2) := by
  induction l1 with
  | nil => simp [removeKeyId]
  | cons e rest ih =>
    obtain ⟨q, j⟩ := e
    have hne : ¬(q = p ∧ j = i) := h (q, j) (List.mem_cons_self _ _)
    have hrest : ∀ e ∈ rest, ¬(e.1 = p ∧ e.2 = i) := fun e he => h e (List.mem_cons_of_mem _ he)
    show removeKeyId p i ((q, j) :: (rest ++ (p, i) :: l2)) = some ((q, j) :: (rest ++ l2))
    simp only [removeKeyId, if_neg hne]
    rw [ih hrest]
    rfl

theorem removeKeyId_sublist {p : Int} {i : Nat} {l l' : List (Int × Nat)}
    (h : removeKeyId p i l = some l') : l'.Sublist l := by
  obtain ⟨l1, l2, heq, ht, _⟩ := removeKeyId_spec h
  subst heq
  subst ht
  exact List.Sublist.append (List.Sublist.refl l1) (List.sublist_cons_self _ _)

/-! ### Store well-formedness -/

/-- Keys are unique (a `std::unordered_map` guarantee) and every stored value
carries its own key as `id` and a non-zero amount (invariants I1/I3). -/
def StoreWF (l : List (Nat × Order)) : Prop :=
  (l.map Prod.fst).Nodup ∧ ∀ e ∈ l, e.2.id = e.1 ∧ e.2.amount ≠ 0

theorem storeWF_nil : StoreWF [] := ⟨List.nodup_nil, by simp⟩

theorem StoreWF.lookup_prop {l : List (Nat × Order)} (h : StoreWF l) {i : Nat} {o : Order}
    (hl : lookupStore l i = some o) : o.id = i ∧ o.amount ≠ 0 :=
  h.2 (i, o) (lookupStore_mem hl)

theorem key_mem_of_lookup {l : List (Nat × Order)} {i : Nat} {o : Order}
    (h : lookupStore l i = some o) : i ∈ l.map Prod.fst :=
  List.mem_map.2 ⟨(i, o), lookupStore_mem h, rfl⟩

theorem lookup_isSome_of_mem {l : List (Nat × Order)} {i : Nat} {o : Order}
    (h : (i, o) ∈ l) : (lookupStore l i).isSome := by
  induction l with
  | nil => cases h
  | cons e rest ih =>
    obtain ⟨k, o'⟩ := e
    by_cases hk : k = i
    · simp [lookupStore, hk]
    · rcases List.mem_cons.1 h with heq | hmem
      · exact absurd (congrArg Prod.fst heq).symm hk
      · simpa [lookupStore, hk] using ih hmem

theorem eraseStore_sublist (l : List (Nat × Order)) (i : Nat) :
    (eraseStore l i).Sublist l := by
  induction l with
  | nil => simp [eraseStore]
  | cons e rest ih =>
    obtain ⟨k, o⟩ := e
    by_cases hk : k = i
    · simp only [eraseStore, if_pos hk]
      exact ih.cons _
    · simp only [eraseStore, if_neg hk]
      exact ih.cons₂ _

theorem mem_replaceStore {l : List (Nat × Order)} {i : Nat} {o : Order} {e : Nat × Order}
    (h : e ∈ replaceStore l i o) : e ∈ l ∨ e = (i, o) := by
  induction l with
  | nil => cases h
  | cons e' rest ih =>
    obtain ⟨k, o'⟩ := e'
    by_cases hk : k = i
    · simp only [replaceStore, if_pos hk] at h
      rcases List.mem_cons.1 h with heq | hmem
      · exact Or.inr heq
      · rcases ih hmem with hl | hr
        · exact Or.inl (List.mem_cons_of_mem _ hl)
        · exact Or.inr hr
    · simp only [replaceStore, if_neg hk] at h
      rcases List.mem_cons.1 h with heq | hmem
      · exact Or.inl (heq ▸ List.mem_cons_self _ _)
      · rcases ih hmem with hl | hr
        · exact Or.inl (List.mem_cons_of_mem _ hl)
        · exact Or.inr hr

theorem replaceStore_keys (l : List (Nat × Order)) (i : Nat) (o : Order) :
    (replaceStore l i o).map Prod.fst = l.map Prod.fst := by
  induction l with
  | nil => rfl
  | cons e rest ih =>
    obtain ⟨k, o'⟩ := e
    by_cases hk : k = i
    · simp [replaceStore, hk, ih]
    · simp [replaceStore, hk, ih]

theorem storeWF_emplace {l : List (Nat × Order)} (h : StoreWF l) {i : Nat} {o : Order}
    (hfresh : lookupStore l i = none) (hid : o.id = i) (hamt : o.amount ≠ 0) :
    StoreWF (l ++ [(i, o)]) := by
  constructor
  · rw [List.map_append]
    refine List.Nodup.append h.1 (by simp) ?_
    intro a ha hb
    simp only [List.map_cons, List.map_nil, List.mem_singleton] at hb
    subst hb
    rcases List.mem_map.1 ha with ⟨e, hmem, hfst⟩
    rw [lookupStore_eq_none_iff] at hfresh
    have he : e = (a, e.2) := by rw [← hfst]
    exact hfresh e.2 (he ▸ hmem)
  · intro e he
    rcases List.mem_append.1 he with hl | hr
    · exact h.2 e hl
    · simp only [List.mem_singleton] at hr
      subst hr
      exact ⟨hid, hamt⟩

theorem storeWF_erase {l : List (Nat × Order)} (h : StoreWF l) (i : Nat) :
    StoreWF (eraseStore l i) := by
  constructor
  · exact ((eraseStore_sublist l i).map Prod.fst).nodup h.1
  · intro e he
    exact h.2 e ((eraseStore_sublist l i).mem he)

theorem storeWF_replace {l : List (Nat × Order)} (h : StoreWF l) {i : Nat} {o : Order}
    (hid : o.id = i) (hamt : o.amount ≠ 0) : StoreWF (replaceStore l i o) := by
  constructor
  · rw [replaceStore_keys]
    exact h.1
  · intro e he
    rcases mem_replaceStore he with hl | hr
    · exact h.2 e hl
    · subst hr
      exact ⟨hid, hamt⟩

/-! ### Canonical branch forms of the map book operations -/

theorem MapBook.add_to_book_fst (b : MapBook) (v : Order) : (b.add_to_book v).1 = true := by
  rw [MapBook.add_to_book]
  by_cases h : is_bid v.amount
  · rw [if_pos h]
  · rw [if_neg h]

theorem MapBook.place_eq (b : MapBook) (v : Order) :
    b.place v =
      if v.amount = 0 ∨ containsStore b.orders v.id then (false, b)
      else if is_bid v.amount then
        (true, ⟨emplaceStore b.orders v.id v,
                emplaceBy bidBefore v.price v.id b.bids, b.asks⟩)
      else
        (true, ⟨emplaceStore b.orders v.id v, b.bids,
                emplaceBy askBefore v.price v.id b.asks⟩) := by
  by_cases hg : v.amount = 0 ∨ containsStore b.orders v.id
  · simp [MapBook.place, hg]
  · by_cases hb : is_bid v.amount
    · simp [MapBook.place, MapBook.add_to_book, hg, hb]
    · simp [MapBook.place, MapBook.add_to_book, hg, hb]

theorem MapBook.remove_from_book_bid {b : MapBook} {v : Order} (h : is_bid v.amount = true) :
    b.remove_from_book v = (removeKeyId v.price v.id b.bids).map (fun l => { b with bids := l }) := by
  rw [MapBook.remove_from_book, if_pos h]

theorem MapBook.remove_from_book_ask {b : MapBook} {v : Order} (h : is_bid v.amount = false) :
    b.remove_from_book v = (removeKeyId v.price v.id b.asks).map (fun l => { b with asks := l }) := by
  rw [MapBook.remove_from_book, if_neg (by simp [h])]

theorem MapBook.modify_eq (b : MapBook) (v : Order) :
    b.modify v =
      if v.amount = 0 then b.cancel v.id
      else
        match lookupStore b.orders v.id with
        | none => (false, b)
        | some previous =>
          if is_bid previous.amount = is_bid v.amount ∧ previous.price = v.price then
            (true, ⟨replaceStore b.orders v.id v, b.bids, b.asks⟩)
          else
            match b.remove_from_book previous with
            | none => (false, b)
            | some b2 =>
              if is_bid v.amount then
                (true, ⟨replaceStore b2.orders v.id v,
                        emplaceBy bidBefore v.price v.id b2.bids, b2.asks⟩)
              else
                (true, ⟨replaceStore b2.orders v.id v, b2.bids,
                        emplaceBy askBefore v.price v.id b2.asks⟩) := by
  by_cases h0 : v.amount = 0
  · simp [MapBook.modify, h0]
  · rw [MapBook.modify, if_neg h0, if_neg h0]
    cases hl : lookupStore b.orders v.id with
    | none => rfl
    | some previous =>
      by_cases hsame : is_bid previous.amount = is_bid v.amount ∧ previous.price = v.price
      · simp only [if_pos hsame]
      · simp only [if_neg hsame]
        cases hr : b.remove_from_book previous with
        | none => rfl
        | some b2 =>
          by_cases hb : is_bid v.amount
          · simp [MapBook.add_to_book, hb]
          · simp [MapBook.add_to_book, hb]

/-! ### Order facts for the two comparators -/

theorem bidBefore_trans : ∀ a b c : Int, bidBefore a b = true → bidBefore b c = true → bidBefore a c = true := by
  intro a b c hab hbc
  simp only [bidBefore, decide_eq_true_eq] at *
  omega

theorem bidBefore_total : ∀ a b : Int, bidBefore a b = false → bidBefore b a = false → a = b := by
  intro a b hab hba
  simp only [bidBefore, decide_eq_false_iff_not] at *
  omega

theorem bidBefore_irrefl : ∀ a : Int, bidBefore a a = false := by
  intro a
  simp [bidBefore]

theorem bidBefore_asym : ∀ a b : Int, bidBefore a b = true → bidBefore b a = false := by
  intro a b hab
  simp only [bidBefore, decide_eq_true_eq, decide_eq_false_iff_not] at *
  omega

theorem askBefore_trans : ∀ a b c : Int, askBefore a b = true → askBefore b c = true → askBefore a c = true := by
  intro a b c hab hbc
  simp only [askBefore, decide_eq_true_eq] at *
  omega

theorem askBefore_total : ∀ a b : Int, askBefore a b = false → askBefore b a = false → a = b := by
  intro a b hab hba
  simp only [askBefore, decide_eq_false_iff_not] at *
  omega

theorem askBefore_irrefl : ∀ a : Int, askBefore a a = false := by
  intro a
  simp [askBefore]

theorem askBefore_asym : ∀ a b : Int, askBefore a b = true → askBefore b a = false := by
  intro a b hab
  simp only [askBefore, decide_eq_true_eq, decide_eq_false_iff_not] at *
  omega

/-! ### Per-side consistency of the map book -/

/-- One side of the map book is sorted by `cmp`, and every entry resolves in
the store to an order with matching price and with `is_bid` equal to `side`
(the index → store direction of invariant I2). -/
def GoodSide (cmp : Int → Int → Bool) (side : Bool) (orders : List (Nat × Order))
    (entries : List (Int × Nat)) : Prop :=
  entries.Pairwise (fun x y => cmp x.1 y.1 = true) ∧
  ∀ e ∈ entries, ∃ o, lookupStore orders e.2 = some o ∧ o.price = e.1 ∧ is_bid o.amount = side

theorem goodSide_nil (cmp : Int → Int → Bool) (side : Bool) (orders : List (Nat × Order)) :
    GoodSide cmp side orders [] := ⟨List.Pairwise.nil, by simp⟩

theorem GoodSide.of_lookup_eq {cmp side orders entries} (h : GoodSide cmp side orders entries)
    {orders' : List (Nat × Order)}
    (heq : ∀ e ∈ entries, lookupStore orders' e.2 = lookupStore orders e.2) :
    GoodSide cmp side orders' entries := by
  refine ⟨h.1, ?_⟩
  intro e he
  obtain ⟨o, hl, hp, hs⟩ := h.2 e he
  exact ⟨o, (heq e he).trans hl, hp, hs⟩

theorem key_ne_of_pairwise_decomp {cmp : Int → Int → Bool}
    (hirr : ∀ a, cmp a a = false) {l1 l2 : List (Int × Nat)} {p : Int} {i : Nat}
    (hs : (l1 ++ (p, i) :: l2).Pairwise (fun x y => cmp x.1 y.1 = true)) :
    ∀ e ∈ l1 ++ l2, e.1 ≠ p := by
  rw [List.pairwise_append] at hs
  obtain ⟨hs1, hs2, hcross⟩ := hs
  intro e he hc
  rcases List.mem_append.1 he with h1 | h2
  · have := hcross e h1 (p, i) (List.mem_cons_self _ _)
    rw [hc] at this
    rw [hirr p] at this
    cases this
  · have := (List.pairwise_cons.1 hs2).1 e h2
    rw [hc] at this
    rw [hirr p] at this
    cases this

theorem GoodSide.after_remove {cmp side orders entries} (h : GoodSide cmp side orders entries)
    {p : Int} {i : Nat} {l' : List (Int × Nat)} (hr : removeKeyId p i entries = some l') :
    GoodSide cmp side orders l' := by
  have hsub := removeKeyId_sublist hr
  exact ⟨List.Pairwise.sublist hsub h.1, fun e he => h.2 e (hsub.mem he)⟩

theorem GoodSide.after_emplace {cmp side orders entries} (h : GoodSide cmp side orders entries)
    (htrans : ∀ a b c, cmp a b = true → cmp b c = true → cmp a c = true)
    (htotal : ∀ a b, cmp a b = false → cmp b a = false → a = b)
    {p : Int} {i : Nat} {o : Order} (hl : lookupStore orders i = some o)
    (hp : o.price = p) (hs : is_bid o.amount = side) :
    GoodSide cmp side orders (emplaceBy cmp p i entries) := by
  refine ⟨emplaceBy_pairwise htrans htotal i h.1, ?_⟩
  intro e he
  rcases mem_emplaceBy he with hmem | heq
  · exact h.2 e hmem
  · subst heq
    exact ⟨o, hl, hp, hs⟩

theorem GoodSide.value_ne_of_none {cmp side orders entries}
    (h : GoodSide cmp side orders entries) {i : Nat} (hn : lookupStore orders i = none) :
    ∀ e ∈ entries, e.2 ≠ i := by
  intro e he hc
  obtain ⟨o, hl, _, _⟩ := h.2 e he
  rw [hc, hn] at hl
  cases hl

theorem GoodSide.value_ne_of_side {cmp side orders entries}
    (h : GoodSide cmp side orders entries) {i : Nat} {v : Order}
    (hl : lookupStore orders i = some v) (hside : is_bid v.amount ≠ side) :
    ∀ e ∈ entries, e.2 ≠ i := by
  intro e he hc
  obtain ⟨o, hlo, _, hso⟩ := h.2 e he
  rw [hc, hl] at hlo
  cases hlo
  exact hside hso

theorem GoodSide.removed_value_gone {cmp side orders entries}
    (hirr : ∀ a, cmp a a = false)
    (h : GoodSide cmp side orders entries) {i : Nat} {v : Order}
    (hl : lookupStore orders i = some v) {l' : List (Int × Nat)}
    (hr : removeKeyId v.price i entries = some l') :
    ∀ e ∈ l', e.2 ≠ i := by
  obtain ⟨l1, l2, heq, hl', hnm⟩ := removeKeyId_spec hr
  subst heq
  subst hl'
  intro e he hc
  obtain ⟨o, hlo, hpo, _⟩ := h.2 e ((List.Sublist.append (List.Sublist.refl l1) (List.sublist_cons_self _ _)).mem he)
  rw [hc, hl] at hlo
  cases hlo
  exact key_ne_of_pairwise_decomp hirr h.1 e he hpo.symm

/-- Invariant of the map book: well-formed store, both sides sorted, and every
index entry backed by a store order of matching price and side. -/
def MapInv (b : MapBook) : Prop :=
  StoreWF b.orders ∧
  GoodSide bidBefore true b.orders b.bids ∧
  GoodSide askBefore false b.orders b.asks

theorem mapInv_empty : MapInv MapBook.empty :=
  ⟨storeWF_nil, goodSide_nil _ _ _, goodSide_nil _ _ _⟩

theorem containsStore_false_iff {l : List (Nat × Order)} {i : Nat} :
    containsStore l i = false ↔ lookupStore l i = none := by
  cases hx : lookupStore l i <;> simp [containsStore, hx]

theorem containsStore_true_iff {l : List (Nat × Order)} {i : Nat} :
    containsStore l i = true ↔ ∃ o, lookupStore l i = some o := by
  cases hx : lookupStore l i <;> simp [containsStore, hx]

theorem emplaceStore_fresh {l : List (Nat × Order)} {i : Nat} (o : Order)
    (h : lookupStore l i = none) : emplaceStore l i o = l ++ [(i, o)] := by
  rw [emplaceStore, if_neg]
  rw [containsStore_false_iff.2 h]
  simp

theorem mapInv_place {b : MapBook} (h : MapInv b) (v : Order) : MapInv (b.place v).2 := by
  rw [MapBook.place_eq]
  by_cases hg : v.amount = 0 ∨ containsStore b.orders v.id
  · rw [if_pos hg]
    exact h
  · rw [if_neg hg]
    push_neg at hg
    have hc : containsStore b.orders v.id = false := by simpa using hg.2
    have hfresh : lookupStore b.orders v.id = none := containsStore_false_iff.1 hc
    by_cases hb : is_bid v.amount
    · rw [if_pos hb]
      show MapInv ⟨emplaceStore b.orders v.id v, emplaceBy bidBefore v.price v.id b.bids, b.asks⟩
      rw [emplaceStore_fresh v hfresh]
      refine ⟨storeWF_emplace h.1 hfresh rfl hg.1, ?_, ?_⟩
      · have hbase : GoodSide bidBefore true (b.orders ++ [(v.id, v)]) b.bids :=
          h.2.1.of_lookup_eq (fun e he => lookupStore_append_of_ne v (h.2.1.value_ne_of_none hfresh e he))
        exact hbase.after_emplace bidBefore_trans bidBefore_total
          (lookupStore_append_self v hfresh) rfl hb
      · exact h.2.2.of_lookup_eq
          (fun e he => lookupStore_append_of_ne v (h.2.2.value_ne_of_none hfresh e he))
    · rw [if_neg hb]
      show MapInv ⟨emplaceStore b.orders v.id v, b.bids, emplaceBy askBefore v.price v.id b.asks⟩
      rw [emplaceStore_fresh v hfresh]
      refine ⟨storeWF_emplace h.1 hfresh rfl hg.1, ?_, ?_⟩
      · exact h.2.1.of_lookup_eq
          (fun e he => lookupStore_append_of_ne v (h.2.1.value_ne_of_none hfresh e he))
      · have hbase : GoodSide askBefore false (b.orders ++ [(v.id, v)]) b.asks :=
          h.2.2.of_lookup_eq (fun e he => lookupStore_append_of_ne v (h.2.2.value_ne_of_none hfresh e he))
        exact hbase.after_emplace askBefore_trans askBefore_total
          (lookupStore_append_self v hfresh) rfl (by simpa using hb)

theorem mapInv_cancel {b : MapBook} (h : MapInv b) (i : Nat) : MapInv (b.cancel i).2 := by
  simp only [MapBook.cancel]
  split
  · exact h
  next v hl =>
    split
    · exact h
    next b2 hr =>
      have hvid : v.id = i := (h.1.lookup_prop hl).1
      by_cases hb : is_bid v.amount
      · rw [MapBook.remove_from_book_bid hb] at hr
        rcases Option.map_eq_some'.1 hr with ⟨l', hrem, hb2⟩
        subst hb2
        rw [hvid] at hrem
        have hgone : ∀ e ∈ l', e.2 ≠ i := h.2.1.removed_value_gone bidBefore_irrefl hl hrem
        have haskne : ∀ e ∈ b.asks, e.2 ≠ i := h.2.2.value_ne_of_side hl (by simp [hb])
        refine ⟨storeWF_erase h.1 i, ?_, ?_⟩
        · exact (h.2.1.after_remove hrem).of_lookup_eq
            (fun e he => lookupStore_erase_ne (hgone e he))
        · exact h.2.2.of_lookup_eq (fun e he => lookupStore_erase_ne (haskne e he))
      · rw [MapBook.remove_from_book_ask (by simpa using hb)] at hr
        rcases Option.map_eq_some'.1 hr with ⟨l', hrem, hb2⟩
        subst hb2
        rw [hvid] at hrem
        have hgone : ∀ e ∈ l', e.2 ≠ i := h.2.2.removed_value_gone askBefore_irrefl hl hrem
        have hbidne : ∀ e ∈ b.bids, e.2 ≠ i := h.2.1.value_ne_of_side hl (by simp [hb])
        refine ⟨storeWF_erase h.1 i, ?_, ?_⟩
        · exact h.2.1.of_lookup_eq (fun e he => lookupStore_erase_ne (hbidne e he))
        · exact (h.2.2.after_remove hrem).of_lookup_eq
            (fun e he => lookupStore_erase_ne (hgone e he))

theorem mapInv_modify {b : MapBook} (h : MapInv b) (v : Order) : MapInv (b.modify v).2 := by
  rw [MapBook.modify_eq]
  by_cases h0 : v.amount = 0
  · rw [if_pos h0]
    exact mapInv_cancel h v.id
  · rw [if_neg h0]
    split
    · exact h
    next previous hl =>
      by_cases hsame : is_bid previous.amount = is_bid v.amount ∧ previous.price = v.price
      · rw [if_pos hsame]
        refine ⟨storeWF_replace h.1 rfl h0, ⟨h.2.1.1, ?_⟩, ⟨h.2.2.1, ?_⟩⟩
        · intro e he
          obtain ⟨o, hlo, hp, hs⟩ := h.2.1.2 e he
          by_cases hei : e.2 = v.id
          · rw [hei, hl] at hlo
            cases hlo
            exact ⟨v, by rw [hei]; exact lookupStore_replace_self hl v,
                   hsame.2 ▸ hp, hsame.1 ▸ hs⟩
          · exact ⟨o, (lookupStore_replace_ne v hei).trans hlo, hp, hs⟩
        · intro e he
          obtain ⟨o, hlo, hp, hs⟩ := h.2.2.2 e he
          by_cases hei : e.2 = v.id
          · rw [hei, hl] at hlo
            cases hlo
            exact ⟨v, by rw [hei]; exact lookupStore_replace_self hl v,
                   hsame.2 ▸ hp, hsame.1 ▸ hs⟩
          · exact ⟨o, (lookupStore_replace_ne v hei).trans hlo, hp, hs⟩
      · rw [if_neg hsame]
        split
        · exact h
        next b2 hr =>
          have hpid : previous.id = v.id := (h.1.lookup_prop hl).1
          by_cases hpb : is_bid previous.amount
          · rw [MapBook.remove_from_book_bid hpb] at hr
            rcases Option.map_eq_some'.1 hr with ⟨l', hrem, hb2⟩
            subst hb2
            rw [hpid] at hrem
            have hgone : ∀ e ∈ l', e.2 ≠ v.id := h.2.1.removed_value_gone bidBefore_irrefl hl hrem
            have haskne : ∀ e ∈ b.asks, e.2 ≠ v.id := h.2.2.value_ne_of_side hl (by simp [hpb])
            have hmidb : GoodSide bidBefore true (replaceStore b.orders v.id v) l' :=
              (h.2.1.after_remove hrem).of_lookup_eq
                (fun e he => lookupStore_replace_ne v (hgone e he))
            have hmida : GoodSide askBefore false (replaceStore b.orders v.id v) b.asks :=
              h.2.2.of_lookup_eq (fun e he => lookupStore_replace_ne v (haskne e he))
            by_cases hvb : is_bid v.amount
            · rw [if_pos hvb]
              exact ⟨storeWF_replace h.1 rfl h0,
                     hmidb.after_emplace bidBefore_trans bidBefore_total
                       (lookupStore_replace_self hl v) rfl hvb, hmida⟩
            · rw [if_neg hvb]
              exact ⟨storeWF_replace h.1 rfl h0, hmidb,
                     hmida.after_emplace askBefore_trans askBefore_total
                       (lookupStore_replace_self hl v) rfl (by simpa using hvb)⟩
          · rw [MapBook.remove_from_book_ask (by simpa using hpb)] at hr
            rcases Option.map_eq_some'.1 hr with ⟨l', hrem, hb2⟩
            subst hb2
            rw [hpid] at hrem
            have hgone : ∀ e ∈ l', e.2 ≠ v.id := h.2.2.removed_value_gone askBefore_irrefl hl hrem
            have hbidne : ∀ e ∈ b.bids, e.2 ≠ v.id := h.2.1.value_ne_of_side hl (by simp [hpb])
            have hmida : GoodSide askBefore false (replaceStore b.orders v.id v) l' :=
              (h.2.2.after_remove hrem).of_lookup_eq
                (fun e he => lookupStore_replace_ne v (hgone e he))
            have hmidb : GoodSide bidBefore true (replaceStore b.orders v.id v) b.bids :=
              h.2.1.of_lookup_eq (fun e he => lookupStore_replace_ne v (hbidne e he))
            by_cases hvb : is_bid v.amount
            · rw [if_pos hvb]
              exact ⟨storeWF_replace h.1 rfl h0,
                     hmidb.after_emplace bidBefore_trans bidBefore_total
                       (lookupStore_replace_self hl v) rfl hvb, hmida⟩
            · rw [if_neg hvb]
              exact ⟨storeWF_replace h.1 rfl h0, hmidb,
                     hmida.after_emplace askBefore_trans askBefore_total
                       (lookupStore_replace_self hl v) rfl (by simpa using hvb)⟩

theorem mapInv_step {b : MapBook} (h : MapInv b) (op : BookOp) : MapInv (b.step op) := by
  cases op with
  | place o => exact mapInv_place h o
  | modify o => exact mapInv_modify h o
  | cancel i => exact mapInv_cancel h i

theorem mapInv_reachable {b : MapBook} (h : b.Reachable) : MapInv b := by
  induction h with
  | empty => exact mapInv_empty
  | step b op hb ih => exact mapInv_step ih op

/-! ### Lemmas about swap-removal from a level -/

theorem swapRemove_eq_none_iff {l : List Nat} {i : Nat} :
    swapRemove l i = none ↔ i ∉ l := by
  induction l with
  | nil => simp [swapRemove]
  | cons x rest ih =>
    by_cases hx : x = i
    · subst hx
      simp only [swapRemove, if_pos rfl]
      cases rest with
      | nil => simp
      | cons y t => simp
    · simp only [swapRemove, if_neg hx, Option.map_eq_none', ih, List.mem_cons]
      constructor
      · intro hn hc
        rcases hc with hc | hc
        · exact hx hc.symm
        · exact hn hc
      · intro hn hc
        exact hn (Or.inr hc)

theorem swapRemove_cons_self_nil (x : Nat) : swapRemove [x] x = some [] := by
  simp [swapRemove]

theorem swapRemove_cons_self_cons (x y : Nat) (t : List Nat) :
    swapRemove (x :: y :: t) x =
      some ((y :: t).getLast (List.cons_ne_nil y t) :: (y :: t).dropLast) := by
  simp [swapRemove]

theorem swapRemove_perm {l : List Nat} {i : Nat} {l' : List Nat}
    (h : swapRemove l i = some l') : l'.Perm (l.erase i) := by
  induction l generalizing l' with
  | nil => simp [swapRemove] at h
  | cons x rest ih =>
    by_cases hx : x = i
    · subst hx
      cases rest with
      | nil =>
        rw [swapRemove_cons_self_nil, Option.some.injEq] at h
        subst h
        simp
      | cons y t =>
        rw [swapRemove_cons_self_cons, Option.some.injEq] at h
        subst h
        rw [List.erase_cons_head]
        have hyt : (y :: t).dropLast ++ [(y :: t).getLast (List.cons_ne_nil y t)] = y :: t :=
          List.dropLast_append_getLast (List.cons_ne_nil y t)
        have hperm :=
          (List.perm_append_singleton ((y :: t).getLast (List.cons_ne_nil y t))
            (y :: t).dropLast).symm
        rw [hyt] at hperm
        exact hperm
    · simp only [swapRemove, if_neg hx] at h
      rcases Option.map_eq_some'.1 h with ⟨t', ht', hl⟩
      subst hl
      rw [List.erase_cons_tail]
      · exact (ih ht').cons x
      · simp [hx]

theorem swapRemove_append_fresh {l : List Nat} {i : Nat} (h : i ∉ l) :
    swapRemove (l ++ [i]) i = some l := by
  induction l with
  | nil => simp [swapRemove]
  | cons x rest ih =>
    have hx : x ≠ i := fun hc => h (hc ▸ List.mem_cons_self _ _)
    have h' : i ∉ rest := fun hc => h (List.mem_cons_of_mem _ hc)
    show swapRemove (x :: (rest ++ [i])) i = some (x :: rest)
    simp only [swapRemove, if_neg hx, ih h']
    rfl

theorem swapRemove_mem {l : List Nat} {i : Nat} {l' : List Nat}
    (h : swapRemove l i = some l') {j : Nat} (hj : j ∈ l') : j ∈ l :=
  List.mem_of_mem_erase ((swapRemove_perm h).subset hj)

theorem swapRemove_not_mem {l : List Nat} {i : Nat} {l' : List Nat}
    (hnd : l.Nodup) (h : swapRemove l i = some l') : i ∉ l' := by
  intro hc
  exact hnd.not_mem_erase ((swapRemove_perm h).subset hc)

theorem swapRemove_mem_of_ne {l : List Nat} {i : Nat} {l' : List Nat}
    (h : swapRemove l i = some l') {j : Nat} (hj : j ∈ l) (hne : j ≠ i) : j ∈ l' :=
  (swapRemove_perm h).symm.subset ((List.mem_erase_of_ne hne).2 hj)

theorem swapRemove_nodup {l : List Nat} {i : Nat} {l' : List Nat}
    (hnd : l.Nodup) (h : swapRemove l i = some l') : l'.Nodup :=
  ((swapRemove_perm h).nodup_iff).2 (hnd.erase i)

/-! ### Lemmas about level insertion -/

theorem mem_addLevelBy {cmp : Int → Int → Bool} {p : Int} {i : Nat}
    {L : List PriceLevel} {l' : PriceLevel} (h : l' ∈ addLevelBy cmp p i L) :
    l' ∈ L ∨ (∃ l0 ∈ L, l0.price = p ∧ l' = ⟨p, l0.ids ++ [i]⟩) ∨ l' = ⟨p, [i]⟩ := by
  induction L with
  | nil =>
    simp only [addLevelBy, List.mem_singleton] at h
    exact Or.inr (Or.inr h)
  | cons l rest ih =>
    by_cases h1 : cmp l.price p
    · simp only [addLevelBy, if_pos h1] at h
      rcases List.mem_cons.1 h with heq | hmem
      · exact Or.inl (heq ▸ List.mem_cons_self _ _)
      · rcases ih hmem with ha | hb | hc
        · exact Or.inl (List.mem_cons_of_mem _ ha)
        · obtain ⟨l0, hl0, hp0, he⟩ := hb
          exact Or.inr (Or.inl ⟨l0, List.mem_cons_of_mem _ hl0, hp0, he⟩)
        · exact Or.inr (Or.inr hc)
    · by_cases h2 : l.price = p
      · simp only [addLevelBy, if_neg h1, if_pos h2] at h
        rcases List.mem_cons.1 h with heq | hmem
        · refine Or.inr (Or.inl ⟨l, List.mem_cons_self _ _, h2, ?_⟩)
          rw [heq, h2]
        · exact Or.inl (List.mem_cons_of_mem _ hmem)
      · simp only [addLevelBy, if_neg h1, if_neg h2] at h
        rcases List.mem_cons.1 h with heq | hmem
        · exact Or.inr (Or.inr heq)
        · exact Or.inl hmem

theorem addLevelBy_keeps {cmp : Int → Int → Bool} {p : Int} {i : Nat}
    {L : List PriceLevel} {l0 : PriceLevel} (h : l0 ∈ L) :
    l0 ∈ addLevelBy cmp p i L ∨
      (l0.price = p ∧ (⟨p, l0.ids ++ [i]⟩ : PriceLevel) ∈ addLevelBy cmp p i L) := by
  induction L with
  | nil => cases h
  | cons l rest ih =>
    by_cases h1 : cmp l.price p
    · simp only [addLevelBy, if_pos h1]
      rcases List.mem_cons.1 h with heq | hmem
      · exact Or.inl (heq ▸ List.mem_cons_self _ _)
      · rcases ih hmem with ha | ⟨hp0, hb⟩
        · exact Or.inl (List.mem_cons_of_mem _ ha)
        · exact Or.inr ⟨hp0, List.mem_cons_of_mem _ hb⟩
    · by_cases h2 : l.price = p
      · simp only [addLevelBy, if_neg h1, if_pos h2]
        rcases List.mem_cons.1 h with heq | hmem
        · subst heq
          refine Or.inr ⟨h2, ?_⟩
          rw [← h2]
          exact List.mem_cons_self _ _
        · exact Or.inl (List.mem_cons_of_mem _ hmem)
      · simp only [addLevelBy, if_neg h1, if_neg h2]
        exact Or.inl (List.mem_cons_of_mem _ h)

theorem addLevelBy_new_mem {cmp : Int → Int → Bool} (p : Int) (i : Nat)
    (L : List PriceLevel) :
    ∃ l' ∈ addLevelBy cmp p i L, l'.price = p ∧ i ∈ l'.ids := by
  induction L with
  | nil => exact ⟨⟨p, [i]⟩, by simp [addLevelBy], rfl, by simp⟩
  | cons l rest ih =>
    by_cases h1 : cmp l.price p
    · obtain ⟨l', hm, hp, hi⟩ := ih
      refine ⟨l', ?_, hp, hi⟩
      simp only [addLevelBy, if_pos h1]
      exact List.mem_cons_of_mem _ hm
    · by_cases h2 : l.price = p
      · refine ⟨⟨l.price, l.ids ++ [i]⟩, ?_, h2, by simp⟩
        simp only [addLevelBy, if_neg h1, if_pos h2]
        exact List.mem_cons_self _ _
      · refine ⟨⟨p, [i]⟩, ?_, rfl, by simp⟩
        simp only [addLevelBy, if_neg h1, if_neg h2]
        exact List.mem_cons_self _ _

theorem addLevelBy_pairwise {cmp : Int → Int → Bool}
    (htrans : ∀ a b c, cmp a b = true → cmp b c = true → cmp a c = true)
    (htotal : ∀ a b, cmp a b = false → cmp b a = false → a = b)
    {p : Int} (i : Nat) {L : List PriceLevel}
    (hs : L.Pairwise (fun x y => cmp x.price y.price = true)) :
    (addLevelBy cmp p i L).Pairwise (fun x y => cmp x.price y.price = true) := by
  induction L with
  | nil => simp [addLevelBy]
  | cons l rest ih =>
    rcases List.pairwise_cons.1 hs with ⟨hhead, hrest⟩
    by_cases h1 : cmp l.price p
    · simp only [addLevelBy, if_pos h1]
      refine List.pairwise_cons.2 ⟨?_, ih hrest⟩
      intro x hx
      rcases mem_addLevelBy hx with ha | hb | hc
      · exact hhead x ha
      · obtain ⟨l0, _, _, he⟩ := hb
        rw [he]
        exact h1
      · rw [hc]
        exact h1
    · by_cases h2 : l.price = p
      · simp only [addLevelBy, if_neg h1, if_pos h2]
        refine List.pairwise_cons.2 ⟨?_, hrest⟩
        intro x hx
        exact hhead x hx
      · simp only [addLevelBy, if_neg h1, if_neg h2]
        have hpl : cmp p l.price = true := by
          by_cases hc : cmp p l.price
          · exact hc
          · exact absurd (htotal l.price p (by simpa using h1) (by simpa using hc)) h2
        refine List.pairwise_cons.2 ⟨?_, hs⟩
        intro x hx
        rcases List.mem_cons.1 hx with heq | hmem
        · rw [heq]
          exact hpl
        · exact htrans p l.price x.price hpl (hhead x hmem)

theorem addLevelBy_split_absent {cmp : Int → Int → Bool} {p : Int} (i : Nat)
    {L : List PriceLevel} (habs : ∀ l ∈ L, l.price ≠ p) :
    ∃ L1 L2, L = L1 ++ L2 ∧ addLevelBy cmp p i L = L1 ++ ⟨p, [i]⟩ :: L2 ∧
      ∀ l ∈ L1, cmp l.price p = true := by
  induction L with
  | nil => exact ⟨[], [], rfl, by simp [addLevelBy], by simp⟩
  | cons l rest ih =>
    by_cases h1 : cmp l.price p
    · have habs' : ∀ x ∈ rest, x.price ≠ p := fun x hx => habs x (List.mem_cons_of_mem _ hx)
      obtain ⟨L1, L2, heq, hres, hcm⟩ := ih habs'
      refine ⟨l :: L1, L2, by rw [heq]; rfl, ?_, ?_⟩
      · simp only [addLevelBy, if_pos h1, hres]
        rfl
      · intro x hx
        rcases List.mem_cons.1 hx with hxe | hxm
        · exact hxe ▸ h1
        · exact hcm x hxm
    · by_cases h2 : l.price = p
      · exact absurd h2 (habs l (List.mem_cons_self _ _))
      · refine ⟨[], l :: rest, rfl, ?_, by simp⟩
        simp only [addLevelBy, if_neg h1, if_neg h2]
        rfl

theorem addLevelBy_split_found {cmp : Int → Int → Bool}
    (hasym : ∀ a b, cmp a b = true → cmp b a = false)
    {p : Int} (i : Nat) {L : List PriceLevel}
    (hs : L.Pairwise (fun x y => cmp x.price y.price = true))
    {l0 : PriceLevel} (hmem : l0 ∈ L) (hp0 : l0.price = p) :
    ∃ L1 L2, L = L1 ++ l0 :: L2 ∧
      addLevelBy cmp p i L = L1 ++ ⟨p, l0.ids ++ [i]⟩ :: L2 ∧
      ∀ l ∈ L1, cmp l.price p = true := by
  induction L with
  | nil => cases hmem
  | cons l rest ih =>
    rcases List.pairwise_cons.1 hs with ⟨hhead, hrest⟩
    by_cases h1 : cmp l.price p
    · have hm' : l0 ∈ rest := by
        rcases List.mem_cons.1 hmem with heq | hm
        · subst heq
          rw [hp0] at h1
          exact absurd (hasym p p h1) (by simp [h1])
        · exact hm
      obtain ⟨L1, L2, heq, hres, hcm⟩ := ih hrest hm'
      refine ⟨l :: L1, L2, by rw [heq]; rfl, ?_, ?_⟩
      · simp only [addLevelBy, if_pos h1, hres]
        rfl
      · intro x hx
        rcases List.mem_cons.1 hx with hxe | hxm
        · exact hxe ▸ h1
        · exact hcm x hxm
    · by_cases h2 : l.price = p
      · have hl0 : l0 = l := by
          rcases List.mem_cons.1 hmem with heq | hm
          · exact heq
          · exfalso
            have hrel := hhead l0 hm
            rw [h2, hp0] at hrel
            exact absurd (hasym p p hrel) (by simp [hrel])
        subst hl0
        refine ⟨[], rest, rfl, ?_, by simp⟩
        simp only [addLevelBy, if_neg h1, if_pos h2]
        rw [h2]
        rfl
      · exfalso
        rcases List.mem_cons.1 hmem with heq | hm
        · subst heq
          exact h2 hp0
        · have hrel := hhead l0 hm
          rw [hp0] at hrel
          exact h1 hrel

/-! ### Lemmas about level removal -/

theorem removeFromLevels_compute {cmp : Int → Int → Bool} {p : Int} {i : Nat}
    (L1 : List PriceLevel) (ids : List Nat) (L2 : List PriceLevel)
    (hcm : ∀ l ∈ L1, cmp l.price p = true) (hpp : cmp p p = false) :
    removeFromLevelsBy cmp p i (L1 ++ ⟨p, ids⟩ :: L2) =
      match swapRemove ids i with
      | none => none
      | some [] => some (L1 ++ L2)
      | some ids2 => some (L1 ++ ⟨p, ids2⟩ :: L2) := by
  induction L1 with
  | nil =>
    cases hsw : swapRemove ids i with
    | none => simp [removeFromLevelsBy, hpp, hsw]
    | some ids2 =>
      cases ids2 with
      | nil => simp [removeFromLevelsBy, hpp, hsw]
      | cons a t => simp [removeFromLevelsBy, hpp, hsw]
  | cons l L1' ih =>
    have h1 : cmp l.price p = true := hcm l (List.mem_cons_self _ _)
    have hcm' : ∀ x ∈ L1', cmp x.price p = true := fun x hx => hcm x (List.mem_cons_of_mem _ hx)
    show removeFromLevelsBy cmp p i (l :: (L1' ++ ⟨p, ids⟩ :: L2)) = _
    simp only [removeFromLevelsBy, if_pos h1]
    rw [ih hcm']
    cases hsw : swapRemove ids i with
    | none => rfl
    | some ids2 =>
      cases ids2 with
      | nil => rfl
      | cons a t => rfl

theorem removeFromLevels_spec {cmp : Int → Int → Bool} {p : Int} {i : Nat}
    {L L' : List PriceLevel} (h : removeFromLevelsBy cmp p i L = some L') :
    ∃ L1 ids ids2 L2, L = L1 ++ ⟨p, ids⟩ :: L2 ∧ swapRemove ids i = some ids2 ∧
      (∀ l ∈ L1, cmp l.price p = true) ∧
      ((ids2 = [] ∧ L' = L1 ++ L2) ∨ (ids2 ≠ [] ∧ L' = L1 ++ ⟨p, ids2⟩ :: L2)) := by
  induction L generalizing L' with
  | nil => simp [removeFromLevelsBy] at h
  | cons l rest ih =>
    by_cases h1 : cmp l.price p
    · simp only [removeFromLevelsBy, if_pos h1] at h
      rcases Option.map_eq_some'.1 h with ⟨t, ht, hL⟩
      obtain ⟨L1, ids, ids2, L2, heq, hsw, hcm, hres⟩ := ih ht
      refine ⟨l :: L1, ids, ids2, L2, by rw [heq]; rfl, hsw, ?_, ?_⟩
      · intro x hx
        rcases List.mem_cons.1 hx with hxe | hxm
        · exact hxe ▸ h1
        · exact hcm x hxm
      · rcases hres with ⟨hnil, hL'⟩ | ⟨hne, hL'⟩
        · refine Or.inl ⟨hnil, ?_⟩
          rw [← hL, hL']
          rfl
        · refine Or.inr ⟨hne, ?_⟩
          rw [← hL, hL']
          rfl
    · by_cases h2 : l.price = p
      · simp only [removeFromLevelsBy, if_neg h1, if_pos h2] at h
        cases hsw : swapRemove l.ids i with
        | none => rw [hsw] at h; cases h
        | some ids2 =>
          rw [hsw] at h
          cases ids2 with
          | nil =>
            simp only [Option.some.injEq] at h
            refine ⟨[], l.ids, [], rest, ?_, hsw, by simp, Or.inl ⟨rfl, by simp [h]⟩⟩
            rw [← h2]
            rfl
          | cons a t =>
            simp only [Option.some.injEq] at h
            refine ⟨[], l.ids, a :: t, rest, ?_, hsw, by simp,
              Or.inr ⟨by simp, ?_⟩⟩
            · rw [← h2]
              rfl
            · rw [← h, ← h2]
              rfl
      · simp only [removeFromLevelsBy, if_neg h1, if_neg h2] at h
        cases h

theorem pairwise_price_congr {cmp : Int → Int → Bool} {L1 L2 : List PriceLevel}
    {p : Int} {ids ids2 : List Nat}
    (h : (L1 ++ ⟨p, ids⟩ :: L2).Pairwise (fun x y => cmp x.price y.price = true)) :
    (L1 ++ ⟨p, ids2⟩ :: L2).Pairwise (fun x y => cmp x.price y.price = true) := by
  rw [List.pairwise_append] at h ⊢
  obtain ⟨ha, hb, hcross⟩ := h
  rcases List.pairwise_cons.1 hb with ⟨hhead, htail⟩
  refine ⟨ha, List.pairwise_cons.2 ⟨fun x hx => hhead x hx, htail⟩, ?_⟩
  intro x hx y hy
  rcases List.mem_cons.1 hy with hye | hym
  · have := hcross x hx ⟨p, ids⟩ (List.mem_cons_self _ _)
    rw [hye]
    exact this
  · exact hcross x hx y (List.mem_cons_of_mem _ hym)

/-! ### Per-side consistency of the vector book -/

/-- One side of the vector book: levels sorted by `cmp`, no empty level, no
duplicate id within a level, and every id resolves in the store to an order
with the level price and side (the index → store direction of I2). -/
def GoodLevels (cmp : Int → Int → Bool) (side : Bool) (orders : List (Nat × Order))
    (levels : List PriceLevel) : Prop :=
  levels.Pairwise (fun x y => cmp x.price y.price = true) ∧
  ∀ l ∈ levels, l.ids ≠ [] ∧ l.ids.Nodup ∧
    ∀ j ∈ l.ids, ∃ o, lookupStore orders j = some o ∧ o.price = l.price ∧ is_bid o.amount = side

theorem goodLevels_nil (cmp : Int → Int → Bool) (side : Bool) (orders : List (Nat × Order)) :
    GoodLevels cmp side orders [] := ⟨List.Pairwise.nil, by simp⟩

theorem GoodLevels.transfer_lookup {cmp side orders levels}
    (h : GoodLevels cmp side orders levels) {orders' : List (Nat × Order)}
    (heq : ∀ l ∈ levels, ∀ j ∈ l.ids, lookupStore orders' j = lookupStore orders j) :
    GoodLevels cmp side orders' levels := by
  refine ⟨h.1, ?_⟩
  intro l hl
  obtain ⟨hne, hnd, hids⟩ := h.2 l hl
  refine ⟨hne, hnd, ?_⟩
  intro j hj
  obtain ⟨o, hlo, hp, hs⟩ := hids j hj
  exact ⟨o, (heq l hl j hj).trans hlo, hp, hs⟩

theorem GoodLevels.id_ne_of_none {cmp side orders levels}
    (h : GoodLevels cmp side orders levels) {i : Nat} (hn : lookupStore orders i = none) :
    ∀ l ∈ levels, ∀ j ∈ l.ids, j ≠ i := by
  intro l hl j hj hc
  obtain ⟨o, hlo, _, _⟩ := (h.2 l hl).2.2 j hj
  rw [hc, hn] at hlo
  cases hlo

theorem GoodLevels.id_ne_of_side {cmp side orders levels}
    (h : GoodLevels cmp side orders levels) {i : Nat} {v : Order}
    (hl : lookupStore orders i = some v) (hside : is_bid v.amount ≠ side) :
    ∀ l ∈ levels, ∀ j ∈ l.ids, j ≠ i := by
  intro l hml j hj hc
  obtain ⟨o, hlo, _, hso⟩ := (h.2 l hml).2.2 j hj
  rw [hc, hl] at hlo
  cases hlo
  exact hside hso

theorem GoodLevels.after_add {cmp side orders levels}
    (h : GoodLevels cmp side orders levels)
    (htrans : ∀ a b c, cmp a b = true → cmp b c = true → cmp a c = true)
    (htotal : ∀ a b, cmp a b = false → cmp b a = false → a = b)
    {p : Int} {i : Nat} {o : Order} (hl : lookupStore orders i = some o)
    (hfl : ∀ l ∈ levels, i ∉ l.ids) (hp : o.price = p) (hs : is_bid o.amount = side) :
    GoodLevels cmp side orders (addLevelBy cmp p i levels) := by
  refine ⟨addLevelBy_pairwise htrans htotal i h.1, ?_⟩
  intro l hml
  rcases mem_addLevelBy hml with ha | hb | hc
  · exact h.2 l ha
  · obtain ⟨l0, hl0, hp0, he⟩ := hb
    obtain ⟨hne, hnd, hids⟩ := h.2 l0 hl0
    subst he
    refine ⟨by simp, ?_, ?_⟩
    · rw [List.nodup_append]
      exact ⟨hnd, List.nodup_singleton i, fun a ha hb => (hfl l0 hl0) ((List.mem_singleton.1 hb) ▸ ha)⟩
    · intro j hj
      rcases List.mem_append.1 hj with hjo | hji
      · obtain ⟨o', hlo, hpo, hso⟩ := hids j hjo
        exact ⟨o', hlo, by rw [hpo, hp0], hso⟩
      · rw [List.mem_singleton.1 hji]
        exact ⟨o, hl, hp, hs⟩
  · subst hc
    refine ⟨by simp, List.nodup_singleton i, ?_⟩
    intro j hj
    rw [List.mem_singleton.1 hj]
    exact ⟨o, hl, hp, hs⟩

theorem GoodLevels.after_level_remove {cmp side orders levels}
    (h : GoodLevels cmp side orders levels) {p : Int} {i : Nat}
    {L' : List PriceLevel} (hr : removeFromLevelsBy cmp p i levels = some L') :
    GoodLevels cmp side orders L' := by
  obtain ⟨L1, ids, ids2, L2, heq, hsw, hcm, hres⟩ := removeFromLevels_spec hr
  subst heq
  have hmid : (⟨p, ids⟩ : PriceLevel) ∈ L1 ++ ⟨p, ids⟩ :: L2 :=
    List.mem_append.2 (Or.inr (List.mem_cons_self _ _))
  obtain ⟨hne0, hnd0, hids0⟩ := h.2 _ hmid
  have hkeep : ∀ l ∈ L1 ++ L2, l ∈ L1 ++ ⟨p, ids⟩ :: L2 := by
    intro l hl
    rcases List.mem_append.1 hl with h1 | h2
    · exact List.mem_append.2 (Or.inl h1)
    · exact List.mem_append.2 (Or.inr (List.mem_cons_of_mem _ h2))
  rcases hres with ⟨hnil, hL⟩ | ⟨hnn, hL⟩
  · subst hL
    refine ⟨?_, ?_⟩
    · have hsub : (L1 ++ L2).Sublist (L1 ++ ⟨p, ids⟩ :: L2) :=
        List.Sublist.append (List.Sublist.refl L1) (List.sublist_cons_self _ _)
      exact List.Pairwise.sublist hsub h.1
    · intro l hl
      exact h.2 l (hkeep l hl)
  · subst hL
    refine ⟨pairwise_price_congr h.1, ?_⟩
    intro l hl
    rcases List.mem_append.1 hl with h1 | h2
    · exact h.2 l (List.mem_append.2 (Or.inl h1))
    · rcases List.mem_cons.1 h2 with heq2 | hm2
      · subst heq2
        refine ⟨hnn, swapRemove_nodup hnd0 hsw, ?_⟩
        intro j hj
        exact hids0 j (swapRemove_mem hsw hj)
      · exact h.2 l (List.mem_append.2 (Or.inr (List.mem_cons_of_mem _ hm2)))

theorem GoodLevels.removed_id_gone {cmp side orders levels}
    (hirr : ∀ a, cmp a a = false)
    (h : GoodLevels cmp side orders levels) {i : Nat} {v : Order}
    (hl : lookupStore orders i = some v) {L' : List PriceLevel}
    (hr : removeFromLevelsBy cmp v.price i levels = some L') :
    ∀ l ∈ L', i ∉ l.ids := by
  obtain ⟨L1, ids, ids2, L2, heq, hsw, hcm, hres⟩ := removeFromLevels_spec hr
  subst heq
  have hmid : (⟨v.price, ids⟩ : PriceLevel) ∈ L1 ++ ⟨v.price, ids⟩ :: L2 :=
    List.mem_append.2 (Or.inr (List.mem_cons_self _ _))
  have hnd0 := (h.2 _ hmid).2.1
  have hside : ∀ l, l ∈ L1 ++ ⟨v.price, ids⟩ :: L2 → i ∈ l.ids → l.price = v.price := by
    intro l hml hil
    obtain ⟨o, hlo, hpo, _⟩ := (h.2 l hml).2.2 i hil
    rw [hl] at hlo
    cases hlo
    exact hpo.symm
  have hL1 : ∀ l ∈ L1, i ∉ l.ids := by
    intro l hml hil
    have hp := hside l (List.mem_append.2 (Or.inl hml)) hil
    have := hcm l hml
    rw [hp, hirr v.price] at this
    cases this
  have hL2 : ∀ l ∈ L2, i ∉ l.ids := by
    intro l hml hil
    have hp := hside l (List.mem_append.2 (Or.inr (List.mem_cons_of_mem _ hml))) hil
    have hpw := h.1
    rw [List.pairwise_append] at hpw
    have := (List.pairwise_cons.1 hpw.2.1).1 l hml
    rw [hp, hirr v.price] at this
    cases this
  rcases hres with ⟨hnil, hL⟩ | ⟨hnn, hL⟩
  · subst hL
    intro l hml
    rcases List.mem_append.1 hml with h1 | h2
    · exact hL1 l h1
    · exact hL2 l h2
  · subst hL
    intro l hml
    rcases List.mem_append.1 hml with h1 | h2
    · exact hL1 l h1
    · rcases List.mem_cons.1 h2 with heq2 | hm2
      · subst heq2
        exact swapRemove_not_mem hnd0 hsw
      · exact hL2 l hm2

/-- Invariant of the vector book: well-formed store, both level lists good,
and every stored order present in its side (both directions of I2). -/
def VecInv (b : VecBook) : Prop :=
  StoreWF b.orders ∧
  GoodLevels bidBefore true b.orders b.bids ∧
  GoodLevels askBefore false b.orders b.asks ∧
  (∀ k o, lookupStore b.orders k = some o →
    (is_bid o.amount = true → ∃ l ∈ b.bids, l.price = o.price ∧ k ∈ l.ids) ∧
    (is_bid o.amount = false → ∃ l ∈ b.asks, l.price = o.price ∧ k ∈ l.ids))

theorem vecInv_empty : VecInv VecBook.empty :=
  ⟨storeWF_nil, goodLevels_nil _ _ _, goodLevels_nil _ _ _, by
    intro k o hk
    simp [lookupStore] at hk⟩

theorem vecInv_place {b : VecBook} (h : VecInv b) (v : Order) : VecInv (b.place v).2 := by
  simp only [VecBook.place]
  by_cases hg : v.amount = 0 ∨ containsStore b.orders v.id
  · rw [if_pos hg]
    exact h
  · rw [if_neg hg]
    push_neg at hg
    have hc : containsStore b.orders v.id = false := by simpa using hg.2
    have hfresh : lookupStore b.orders v.id = none := containsStore_false_iff.1 hc
    have hfb : ∀ l ∈ b.bids, v.id ∉ l.ids := by
      intro l hl hj
      exact h.2.1.id_ne_of_none hfresh l hl v.id hj rfl
    have hfa : ∀ l ∈ b.asks, v.id ∉ l.ids := by
      intro l hl hj
      exact h.2.2.1.id_ne_of_none hfresh l hl v.id hj rfl
    have horders : ∀ (levels : List PriceLevel), (∀ l ∈ levels, v.id ∉ l.ids) →
        ∀ l ∈ levels, ∀ j ∈ l.ids,
          lookupStore (b.orders ++ [(v.id, v)]) j = lookupStore b.orders j := by
      intro levels hni l hml j hj
      exact lookupStore_append_of_ne v (fun hc2 => hni l hml (hc2 ▸ hj))
    by_cases hb : is_bid v.amount
    · rw [if_pos hb]
      show VecInv ⟨emplaceStore b.orders v.id v, addLevelBy bidBefore v.price v.id b.bids, b.asks⟩
      rw [emplaceStore_fresh v hfresh]
      have hbbase : GoodLevels bidBefore true (b.orders ++ [(v.id, v)]) b.bids :=
        h.2.1.transfer_lookup (horders b.bids hfb)
      have habase : GoodLevels askBefore false (b.orders ++ [(v.id, v)]) b.asks :=
        h.2.2.1.transfer_lookup (horders b.asks hfa)
      refine ⟨storeWF_emplace h.1 hfresh rfl hg.1, ?_, habase, ?_⟩
      · exact hbbase.after_add bidBefore_trans bidBefore_total
          (lookupStore_append_self v hfresh) hfb rfl hb
      · intro k o hk
        by_cases hki : k = v.id
        · subst hki
          rw [lookupStore_append_self v hfresh] at hk
          cases hk
          constructor
          · intro _
            obtain ⟨l', hm', hp', hi'⟩ := @addLevelBy_new_mem bidBefore v.price v.id b.bids
            exact ⟨l', hm', by rw [hp'], hi'⟩
          · intro hfalse
            rw [hb] at hfalse
            cases hfalse
        · rw [lookupStore_append_of_ne v hki] at hk
          have hold := h.2.2.2 k o hk
          constructor
          · intro hbo
            obtain ⟨l, hml, hpl, hkl⟩ := hold.1 hbo
            rcases @addLevelBy_keeps bidBefore v.price v.id b.bids l hml with hk1 | ⟨hp1, hk2⟩
            · exact ⟨l, hk1, hpl, hkl⟩
            · exact ⟨⟨v.price, l.ids ++ [v.id]⟩, hk2, by rw [← hp1]; exact hpl,
                List.mem_append.2 (Or.inl hkl)⟩
          · intro hao
            exact hold.2 hao
    · rw [if_neg hb]
      show VecInv ⟨emplaceStore b.orders v.id v, b.bids, addLevelBy askBefore v.price v.id b.asks⟩
      rw [emplaceStore_fresh v hfresh]
      have hbbase : GoodLevels bidBefore true (b.orders ++ [(v.id, v)]) b.bids :=
        h.2.1.transfer_lookup (horders b.bids hfb)
      have habase : GoodLevels askBefore false (b.orders ++ [(v.id, v)]) b.asks :=
        h.2.2.1.transfer_lookup (horders b.asks hfa)
      refine ⟨storeWF_emplace h.1 hfresh rfl hg.1, hbbase, ?_, ?_⟩
      · exact habase.after_add askBefore_trans askBefore_total
          (lookupStore_append_self v hfresh) hfa rfl (by simpa using hb)
      · intro k o hk
        by_cases hki : k = v.id
        · subst hki
          rw [lookupStore_append_self v hfresh] at hk
          cases hk
          constructor
          · intro htrue
            exact absurd htrue (by simpa using hb)
          · intro _
            obtain ⟨l', hm', hp', hi'⟩ := @addLevelBy_new_mem askBefore v.price v.id b.asks
            exact ⟨l', hm', by rw [hp'], hi'⟩
        · rw [lookupStore_append_of_ne v hki] at hk
          have hold := h.2.2.2 k o hk
          constructor
          · intro hbo
            exact hold.1 hbo
          · intro hao
            obtain ⟨l, hml, hpl, hkl⟩ := hold.2 hao
            rcases @addLevelBy_keeps askBefore v.price v.id b.asks l hml with hk1 | ⟨hp1, hk2⟩
            · exact ⟨l, hk1, hpl, hkl⟩
            · exact ⟨⟨v.price, l.ids ++ [v.id]⟩, hk2, by rw [← hp1]; exact hpl,
                List.mem_append.2 (Or.inl hkl)⟩

theorem vecInv_cancel {b : VecBook} (h : VecInv b) (i : Nat) : VecInv (b.cancel i).2 := by
  simp only [VecBook.cancel]
  split
  · exact h
  next current hl =>
    by_cases hb : is_bid current.amount
    · rw [if_pos hb]
      split
      · exact h
      next L' hr =>
        have hgone : ∀ l ∈ L', i ∉ l.ids :=
          h.2.1.removed_id_gone bidBefore_irrefl hl hr
        have haskne : ∀ l ∈ b.asks, ∀ j ∈ l.ids, j ≠ i :=
          h.2.2.1.id_ne_of_side hl (by simp [hb])
        refine ⟨storeWF_erase h.1 i, ?_, ?_, ?_⟩
        · exact (h.2.1.after_level_remove hr).transfer_lookup
            (fun l hml j hj => lookupStore_erase_ne (fun hc => hgone l hml (hc ▸ hj)))
        · exact h.2.2.1.transfer_lookup
            (fun l hml j hj => lookupStore_erase_ne (haskne l hml j hj))
        · intro k o hk
          have hki : k ≠ i := by
            intro hc
            rw [hc, lookupStore_erase_self] at hk
            cases hk
          rw [lookupStore_erase_ne hki] at hk
          have hold := h.2.2.2 k o hk
          constructor
          · intro hbo
            obtain ⟨l, hml, hpl, hkl⟩ := hold.1 hbo
            obtain ⟨L1, ids, ids2, L2, heq, hsw, hcm, hres⟩ := removeFromLevels_spec hr
            rw [heq] at hml
            rcases List.mem_append.1 hml with h1 | h2
            · rcases hres with ⟨_, hL⟩ | ⟨_, hL⟩ <;>
                exact ⟨l, by rw [hL]; exact List.mem_append.2 (Or.inl h1), hpl, hkl⟩
            · rcases List.mem_cons.1 h2 with heq2 | hm2
              · subst heq2
                have hk2 : k ∈ ids2 := swapRemove_mem_of_ne hsw hkl hki
                rcases hres with ⟨hnil, hL⟩ | ⟨hnn, hL⟩
                · rw [hnil] at hk2
                  cases hk2
                · exact ⟨⟨current.price, ids2⟩, by
                    rw [hL]; exact List.mem_append.2 (Or.inr (List.mem_cons_self _ _)), hpl, hk2⟩
              · rcases hres with ⟨_, hL⟩ | ⟨_, hL⟩
                · exact ⟨l, by rw [hL]; exact List.mem_append.2 (Or.inr hm2), hpl, hkl⟩
                · exact ⟨l, by
                    rw [hL]; exact List.mem_append.2 (Or.inr (List.mem_cons_of_mem _ hm2)), hpl, hkl⟩
          · intro hao
            exact hold.2 hao
    · rw [if_neg hb]
      split
      · exact h
      next L' hr =>
        have hgone : ∀ l ∈ L', i ∉ l.ids :=
          h.2.2.1.removed_id_gone askBefore_irrefl hl hr
        have hbidne : ∀ l ∈ b.bids, ∀ j ∈ l.ids, j ≠ i :=
          h.2.1.id_ne_of_side hl (by simp [hb])
        refine ⟨storeWF_erase h.1 i, ?_, ?_, ?_⟩
        · exact h.2.1.transfer_lookup
            (fun l hml j hj => lookupStore_erase_ne (hbidne l hml j hj))
        · exact (h.2.2.1.after_level_remove hr).transfer_lookup
            (fun l hml j hj => lookupStore_erase_ne (fun hc => hgone l hml (hc ▸ hj)))
        · intro k o hk
          have hki : k ≠ i := by
            intro hc
            rw [hc, lookupStore_erase_self] at hk
            cases hk
          rw [lookupStore_erase_ne hki] at hk
          have hold := h.2.2.2 k o hk
          constructor
          · intro hbo
            exact hold.1 hbo
          · intro hao
            obtain ⟨l, hml, hpl, hkl⟩ := hold.2 hao
            obtain ⟨L1, ids, ids2, L2, heq, hsw, hcm, hres⟩ := removeFromLevels_spec hr
            rw [heq] at hml
            rcases List.mem_append.1 hml with h1 | h2
            · rcases hres with ⟨_, hL⟩ | ⟨_, hL⟩ <;>
                exact ⟨l, by rw [hL]; exact List.mem_append.2 (Or.inl h1), hpl, hkl⟩
            · rcases List.mem_cons.1 h2 with heq2 | hm2
              · subst heq2
                have hk2 : k ∈ ids2 := swapRemove_mem_of_ne hsw hkl hki
                rcases hres with ⟨hnil, hL⟩ | ⟨hnn, hL⟩
                · rw [hnil] at hk2
                  cases hk2
                · exact ⟨⟨current.price, ids2⟩, by
                    rw [hL]; exact List.mem_append.2 (Or.inr (List.mem_cons_self _ _)), hpl, hk2⟩
              · rcases hres with ⟨_, hL⟩ | ⟨_, hL⟩
                · exact ⟨l, by rw [hL]; exact List.mem_append.2 (Or.inr hm2), hpl, hkl⟩
                · exact ⟨l, by
                    rw [hL]; exact List.mem_append.2 (Or.inr (List.mem_cons_of_mem _ hm2)), hpl, hkl⟩

theorem vecInv_modify {b : VecBook} (h : VecInv b) (v : Order) : VecInv (b.modify v).2 := by
  simp only [VecBook.modify]
  by_cases h0 : v.amount = 0
  · rw [if_pos h0]
    exact vecInv_cancel h v.id
  · rw [if_neg h0]
    by_cases hc : containsStore b.orders v.id
    · rw [if_pos hc]
      split
      next b2 heq =>
        have h2 := vecInv_cancel h v.id
        rw [heq] at h2
        exact h2
      next b2 heq =>
        have h2 := vecInv_cancel h v.id
        rw [heq] at h2
        exact vecInv_place h2 v
    · rw [if_neg hc]
      exact h

theorem vecInv_step {b : VecBook} (h : VecInv b) (op : BookOp) : VecInv (b.step op) := by
  cases op with
  | place o => exact vecInv_place h o
  | modify o => exact vecInv_modify h o
  | cancel i => exact vecInv_cancel h i

theorem vecInv_reachable {b : VecBook} (h : b.Reachable) : VecInv b := by
  induction h with
  | empty => exact vecInv_empty
  | step b op hb ih => exact vecInv_step ih op

/-! ### Branch characterizations used by the claims -/

theorem map_cancel_cases (s : MapBook) (i : Nat) :
    s.cancel i = (false, s) ∨ (s.cancel i).1 = true := by
  simp only [MapBook.cancel]
  split
  · exact Or.inl rfl
  next v hl =>
    split
    · exact Or.inl rfl
    next b2 hr => exact Or.inr rfl

theorem map_cancel_false_frame {s : MapBook} {i : Nat}
    (hf : (s.cancel i).1 = false) : (s.cancel i).2 = s := by
  rcases map_cancel_cases s i with h | h
  · rw [h]
  · rw [h] at hf
    cases hf

theorem map_modify_cases (s : MapBook) (o : Order) :
    (o.amount = 0 ∧ s.modify o = s.cancel o.id) ∨
      s.modify o = (false, s) ∨ (s.modify o).1 = true := by
  by_cases h0 : o.amount = 0
  · exact Or.inl ⟨h0, by simp [MapBook.modify, h0]⟩
  · refine Or.inr ?_
    rw [MapBook.modify_eq, if_neg h0]
    split
    · exact Or.inl rfl
    next previous hl =>
      split
      · exact Or.inr rfl
      · split
        · exact Or.inl rfl
        next b2 hr =>
          split
          · exact Or.inr rfl
          · exact Or.inr rfl

theorem vec_cancel_cases (t : VecBook) (i : Nat) :
    t.cancel i = (false, t) ∨ (t.cancel i).1 = true := by
  simp only [VecBook.cancel]
  split
  · exact Or.inl rfl
  next current hl =>
    by_cases hb : is_bid current.amount
    · rw [if_pos hb]
      split
      · exact Or.inl rfl
      · exact Or.inr rfl
    · rw [if_neg hb]
      split
      · exact Or.inl rfl
      · exact Or.inr rfl

theorem vec_cancel_false_frame {t : VecBook} {i : Nat}
    (hf : (t.cancel i).1 = false) : (t.cancel i).2 = t := by
  rcases vec_cancel_cases t i with h | h
  · rw [h]
  · rw [h] at hf
    cases hf

theorem vec_cancel_true_erase {t : VecBook} {i : Nat} {t2 : VecBook}
    (h : t.cancel i = (true, t2)) : t2.orders = eraseStore t.orders i := by
  simp only [VecBook.cancel] at h
  split at h
  · simp at h
  next current hl =>
    by_cases hb : is_bid current.amount
    · rw [if_pos hb] at h
      split at h
      · simp at h
      next L' hr =>
        have h2 : ({ t with bids := L', orders := eraseStore t.orders i } : VecBook) = t2 :=
          congrArg Prod.snd h
        rw [← h2]
    · rw [if_neg hb] at h
      split at h
      · simp at h
      next L' hr =>
        have h2 : ({ t with asks := L', orders := eraseStore t.orders i } : VecBook) = t2 :=
          congrArg Prod.snd h
        rw [← h2]

theorem vec_place_succeeds {t : VecBook} {o : Order} (h0 : o.amount ≠ 0)
    (hc : containsStore t.orders o.id = false) : (t.place o).1 = true := by
  have hg : ¬(o.amount = 0 ∨ containsStore t.orders o.id) := by
    intro hg
    rcases hg with hg | hg
    · exact h0 hg
    · rw [hc] at hg
      cases hg
  simp only [VecBook.place, if_neg hg]
  by_cases hb : is_bid o.amount
  · rw [if_pos hb]
  · rw [if_neg hb]

theorem vec_modify_cases (t : VecBook) (o : Order) :
    (o.amount = 0 ∧ t.modify o = t.cancel o.id) ∨
      t.modify o = (false, t) ∨ (t.modify o).1 = true := by
  by_cases h0 : o.amount = 0
  · exact Or.inl ⟨h0, by simp [VecBook.modify, h0]⟩
  · refine Or.inr ?_
    simp only [VecBook.modify, if_neg h0]
    by_cases hc : containsStore t.orders o.id
    · rw [if_pos hc]
      split
      next b2 heq =>
        have hb2 : b2 = t := by
          rcases vec_cancel_cases t o.id with hcc | hcc
          · rw [heq] at hcc
            exact congrArg Prod.snd hcc
          · rw [heq] at hcc
            cases hcc
        rw [hb2]
        exact Or.inl rfl
      next b2 heq =>
        have hcont : containsStore b2.orders o.id = false := by
          rw [vec_cancel_true_erase heq, containsStore_false_iff]
          exact lookupStore_erase_self _ _
        exact Or.inr (vec_place_succeeds h0 hcont)
    · rw [if_neg hc]
      exact Or.inl rfl

theorem map_modify_false_frame {s : MapBook} {o : Order}
    (hf : (s.modify o).1 = false) : (s.modify o).2 = s := by
  rcases map_modify_cases s o with ⟨h0, heq⟩ | heq | h1
  · rw [heq] at hf ⊢
    exact map_cancel_false_frame hf
  · rw [heq]
  · rw [h1] at hf
    cases hf

theorem vec_modify_false_frame {t : VecBook} {o : Order}
    (hf : (t.modify o).1 = false) : (t.modify o).2 = t := by
  rcases vec_modify_cases t o with ⟨h0, heq⟩ | heq | h1
  · rw [heq] at hf ⊢
    exact vec_cancel_false_frame hf
  · rw [heq]
  · rw [h1] at hf
    cases hf

/-! ### Claim C4 -/

/-- Claim C4: in both variants, `place` returns false when `order.amount == 0`
or `order.id` is currently active, and every `place` call that returns false
leaves the entire book state unchanged. -/
theorem claim_C4 (s : MapBook) (t : VecBook) (o : Order) :
    ((o.amount = 0 ∨ containsStore s.orders o.id = true → (s.place o).1 = false) ∧
     ((s.place o).1 = false → (s.place o).2 = s)) ∧
    ((o.amount = 0 ∨ containsStore t.orders o.id = true → (t.place o).1 = false) ∧
     ((t.place o).1 = false → (t.place o).2 = t)) := by
  refine ⟨⟨?_, ?_⟩, ⟨?_, ?_⟩⟩
  · intro hg
    rw [MapBook.place_eq, if_pos hg]
  · intro hf
    rw [MapBook.place_eq] at hf ⊢
    by_cases hg : o.amount = 0 ∨ containsStore s.orders o.id
    · rw [if_pos hg]
    · rw [if_neg hg] at hf
      by_cases hb : is_bid o.amount
      · rw [if_pos hb] at hf
        cases hf
      · rw [if_neg hb] at hf
        cases hf
  · intro hg
    simp only [VecBook.place, if_pos hg]
  · intro hf
    simp only [VecBook.place] at hf ⊢
    by_cases hg : o.amount = 0 ∨ containsStore t.orders o.id
    · rw [if_pos hg]
    · rw [if_neg hg] at hf
      by_cases hb : is_bid o.amount
      · rw [if_pos hb] at hf
        cases hf
      · rw [if_neg hb] at hf
        cases hf

theorem claim_C4_witness :
    ((MapBook.empty.place ⟨1, 100, 0⟩).1 = false ∧
     (MapBook.empty.place ⟨1, 100, 0⟩).2 = MapBook.empty) ∧
    ((VecBook.empty.place ⟨1, 100, 0⟩).1 = false ∧
     (VecBook.empty.place ⟨1, 100, 0⟩).2 = VecBook.empty) :=
  ⟨⟨(claim_C4 MapBook.empty VecBook.empty ⟨1, 100, 0⟩).1.1 (Or.inl rfl),
    (claim_C4 MapBook.empty VecBook.empty ⟨1, 100, 0⟩).1.2 (by decide)⟩,
   ⟨(claim_C4 MapBook.empty VecBook.empty ⟨1, 100, 0⟩).2.1 (Or.inl rfl),
    (claim_C4 MapBook.empty VecBook.empty ⟨1, 100, 0⟩).2.2 (by decide)⟩⟩

/-! ### Claim C6 -/

/-- Claim C6: in both variants, whenever `modify` returns false the book state
after the call is identical to the state before it — a failed `modify` is
atomic. -/
theorem claim_C6 (s : MapBook) (t : VecBook) (o : Order) :
    ((s.modify o).1 = false → (s.modify o).2 = s) ∧
    ((t.modify o).1 = false → (t.modify o).2 = t) :=
  ⟨fun hf => map_modify_false_frame hf, fun hf => vec_modify_false_frame hf⟩

theorem claim_C6_witness :
    (MapBook.empty.modify ⟨1, 100, 5⟩).2 = MapBook.empty ∧
    (VecBook.empty.modify ⟨1, 100, 5⟩).2 = VecBook.empty :=
  ⟨(claim_C6 MapBook.empty VecBook.empty ⟨1, 100, 5⟩).1 (by decide),
   (claim_C6 MapBook.empty VecBook.empty ⟨1, 100, 5⟩).2 (by decide)⟩

/-! ### Claim C7 -/

/-- Claim C7: in both variants, `modify` of an order with zero amount is the
very same call as `cancel` of its id (same flag, same final state), and in any
reachable state no stored order has amount 0. -/
theorem claim_C7 (s : MapBook) (hs : s.Reachable) (t : VecBook) (ht : t.Reachable) (o : Order) :
    (o.amount = 0 → s.modify o = s.cancel o.id) ∧
    (o.amount = 0 → t.modify o = t.cancel o.id) ∧
    (∀ i o', lookupStore s.orders i = some o' → o'.amount ≠ 0) ∧
    (∀ i o', lookupStore t.orders i = some o' → o'.amount ≠ 0) := by
  refine ⟨?_, ?_, ?_, ?_⟩
  · intro h0
    simp [MapBook.modify, h0]
  · intro h0
    simp [VecBook.modify, h0]
  · intro i o' hl
    exact ((mapInv_reachable hs).1.lookup_prop hl).2
  · intro i o' hl
    exact ((vecInv_reachable ht).1.lookup_prop hl).2

theorem claim_C7_witness :
    (MapBook.empty.modify ⟨7, 10, 0⟩ = MapBook.empty.cancel 7) ∧
    (VecBook.empty.modify ⟨7, 10, 0⟩ = VecBook.empty.cancel 7) :=
  ⟨(claim_C7 MapBook.empty MapBook.Reachable.empty VecBook.empty
      VecBook.Reachable.empty ⟨7, 10, 0⟩).1 rfl,
   (claim_C7 MapBook.empty MapBook.Reachable.empty VecBook.empty
      VecBook.Reachable.empty ⟨7, 10, 0⟩).2.1 rfl⟩

theorem map_cancel_eq_of {s : MapBook} {i : Nat} {v : Order} {b2 : MapBook}
    (hl : lookupStore s.orders i = some v) (hr : s.remove_from_book v = some b2) :
    s.cancel i = (true, ⟨eraseStore b2.orders i, b2.bids, b2.asks⟩) := by
  simp only [MapBook.cancel, hl, hr]

theorem map_cancel_true_decomp {s : MapBook} {i : Nat} (htr : (s.cancel i).1 = true) :
    ∃ v b2, lookupStore s.orders i = some v ∧ s.remove_from_book v = some b2 := by
  simp only [MapBook.cancel] at htr
  split at htr
  · cases htr
  next v hl =>
    split at htr
    · cases htr
    next b2 hr => exact ⟨v, b2, hl, hr⟩

theorem map_remove_decomp {s : MapBook} {v : Order} {b2 : MapBook}
    (hr : s.remove_from_book v = some b2) :
    (is_bid v.amount = true ∧ ∃ l', removeKeyId v.price v.id s.bids = some l' ∧
       b2 = ⟨s.orders, l', s.asks⟩) ∨
    (is_bid v.amount = false ∧ ∃ l', removeKeyId v.price v.id s.asks = some l' ∧
       b2 = ⟨s.orders, s.bids, l'⟩) := by
  by_cases hb : is_bid v.amount
  · rw [MapBook.remove_from_book_bid hb] at hr
    rcases Option.map_eq_some'.1 hr with ⟨l', hrem, hb2⟩
    exact Or.inl ⟨hb, l', hrem, hb2.symm⟩
  · rw [MapBook.remove_from_book_ask (by simpa using hb)] at hr
    rcases Option.map_eq_some'.1 hr with ⟨l', hrem, hb2⟩
    exact Or.inr ⟨by simpa using hb, l', hrem, hb2.symm⟩

theorem vec_cancel_eq_bid {t : VecBook} {i : Nat} {cur : Order} {L' : List PriceLevel}
    (hl : lookupStore t.orders i = some cur) (hb : is_bid cur.amount = true)
    (hr : removeFromLevelsBy bidBefore cur.price i t.bids = some L') :
    t.cancel i = (true, ⟨eraseStore t.orders i, L', t.asks⟩) := by
  simp only [VecBook.cancel, hl, if_pos hb, hr]

theorem vec_cancel_eq_ask {t : VecBook} {i : Nat} {cur : Order} {L' : List PriceLevel}
    (hl : lookupStore t.orders i = some cur) (hb : is_bid cur.amount = false)
    (hr : removeFromLevelsBy askBefore cur.price i t.asks = some L') :
    t.cancel i = (true, ⟨eraseStore t.orders i, t.bids, L'⟩) := by
  simp only [VecBook.cancel, hl, hb, hr]
  rfl

theorem vec_cancel_true_decomp {t : VecBook} {i : Nat} (htr : (t.cancel i).1 = true) :
    ∃ cur, lookupStore t.orders i = some cur ∧
      ((is_bid cur.amount = true ∧
          ∃ L', removeFromLevelsBy bidBefore cur.price i t.bids = some L') ∨
       (is_bid cur.amount = false ∧
          ∃ L', removeFromLevelsBy askBefore cur.price i t.asks = some L')) := by
  simp only [VecBook.cancel] at htr
  split at htr
  · cases htr
  next cur hl =>
    by_cases hb : is_bid cur.amount
    · rw [if_pos hb] at htr
      split at htr
      · cases htr
      next L' hr => exact ⟨cur, hl, Or.inl ⟨hb, L', hr⟩⟩
    · rw [if_neg hb] at htr
      split at htr
      · cases htr
      next L' hr => exact ⟨cur, hl, Or.inr ⟨by simpa using hb, L', hr⟩⟩

/-! ### Claim C5 -/

/-- Claim C5: in both variants, `cancel(id)` returns false whenever `id` is
not active; when it returns true the order is removed from the relevant Price
Index and the Order Store; and whenever it returns false the Order Store is
left unchanged. -/
theorem claim_C5 (s : MapBook) (hs : s.Reachable) (t : VecBook) (ht : t.Reachable) (i : Nat) :
    ((lookupStore s.orders i = none → (s.cancel i).1 = false) ∧
     ((s.cancel i).1 = true →
        lookupStore (s.cancel i).2.orders i = none ∧
        (∀ e ∈ (s.cancel i).2.bids, e.2 ≠ i) ∧
        (∀ e ∈ (s.cancel i).2.asks, e.2 ≠ i)) ∧
     ((s.cancel i).1 = false → (s.cancel i).2.orders = s.orders)) ∧
    ((lookupStore t.orders i = none → (t.cancel i).1 = false) ∧
     ((t.cancel i).1 = true →
        lookupStore (t.cancel i).2.orders i = none ∧
        (∀ l ∈ (t.cancel i).2.bids, i ∉ l.ids) ∧
        (∀ l ∈ (t.cancel i).2.asks, i ∉ l.ids)) ∧
     ((t.cancel i).1 = false → (t.cancel i).2.orders = t.orders)) := by
  have hm := mapInv_reachable hs
  have hv := vecInv_reachable ht
  refine ⟨⟨?_, ?_, ?_⟩, ⟨?_, ?_, ?_⟩⟩
  · intro hn
    simp [MapBook.cancel, hn]
  · intro htr
    obtain ⟨v, b2, hl, hr⟩ := map_cancel_true_decomp htr
    have hvid : v.id = i := (hm.1.lookup_prop hl).1
    rw [map_cancel_eq_of hl hr]
    rcases map_remove_decomp hr with ⟨hb, l', hrem, hb2⟩ | ⟨hb, l', hrem, hb2⟩
    · subst hb2
      rw [hvid] at hrem
      refine ⟨lookupStore_erase_self _ _, ?_, ?_⟩
      · exact hm.2.1.removed_value_gone bidBefore_irrefl hl hrem
      · exact hm.2.2.value_ne_of_side hl (by simp [hb])
    · subst hb2
      rw [hvid] at hrem
      refine ⟨lookupStore_erase_self _ _, ?_, ?_⟩
      · exact hm.2.1.value_ne_of_side hl (by simp [hb])
      · exact hm.2.2.removed_value_gone askBefore_irrefl hl hrem
  · intro hf
    rw [map_cancel_false_frame hf]
  · intro hn
    simp [VecBook.cancel, hn]
  · intro htr
    obtain ⟨cur, hl, hcases⟩ := vec_cancel_true_decomp htr
    rcases hcases with ⟨hb, L', hr⟩ | ⟨hb, L', hr⟩
    · rw [vec_cancel_eq_bid hl hb hr]
      refine ⟨lookupStore_erase_self _ _, ?_, ?_⟩
      · exact hv.2.1.removed_id_gone bidBefore_irrefl hl hr
      · intro l hml hil
        exact hv.2.2.1.id_ne_of_side hl (by simp [hb]) l hml i hil rfl
    · rw [vec_cancel_eq_ask hl hb hr]
      refine ⟨lookupStore_erase_self _ _, ?_, ?_⟩
      · intro l hml hil
        exact hv.2.1.id_ne_of_side hl (by simp [hb]) l hml i hil rfl
      · exact hv.2.2.1.removed_id_gone askBefore_irrefl hl hr
  · intro hf
    rw [vec_cancel_false_frame hf]

theorem claim_C5_witness :
    ((MapBook.empty.cancel 4).1 = false ∧ (MapBook.empty.cancel 4).2.orders = []) ∧
    ((VecBook.empty.cancel 4).1 = false ∧ (VecBook.empty.cancel 4).2.orders = []) :=
  ⟨⟨(claim_C5 MapBook.empty MapBook.Reachable.empty VecBook.empty
       VecBook.Reachable.empty 4).1.1 rfl,
    (claim_C5 MapBook.empty MapBook.Reachable.empty VecBook.empty
       VecBook.Reachable.empty 4).1.2.2 (by decide)⟩,
   ⟨(claim_C5 MapBook.empty MapBook.Reachable.empty VecBook.empty
       VecBook.Reachable.empty 4).2.1 rfl,
    (claim_C5 MapBook.empty MapBook.Reachable.empty VecBook.empty
       VecBook.Reachable.empty 4).2.2.2 (by decide)⟩⟩

/-! ### Claim C9 -/

/-- Claim C9: in every reachable state of the sorted-bucket book, every price
level on either side has a non-empty id sequence, and `best_bid()` /
`best_ask()` return none exactly when the corresponding side holds no
levels. -/
theorem claim_C9 (t : VecBook) (ht : t.Reachable) :
    (∀ l ∈ t.bids, l.ids ≠ []) ∧ (∀ l ∈ t.asks, l.ids ≠ []) ∧
    (t.best_bid = none ↔ t.bids = []) ∧ (t.best_ask = none ↔ t.asks = []) := by
  have h := vecInv_reachable ht
  refine ⟨fun l hl => (h.2.1.2 l hl).1, fun l hl => (h.2.2.1.2 l hl).1, ?_, ?_⟩
  · cases hb : t.bids with
    | nil => simp [VecBook.best_bid, VecBook.best_from_levels, hb]
    | cons l rest =>
      have hl : l ∈ t.bids := hb ▸ List.mem_cons_self _ _
      obtain ⟨hne, _, hids⟩ := h.2.1.2 l hl
      rw [VecBook.best_bid, hb]
      constructor
      · intro hnone
        simp only [VecBook.best_from_levels] at hnone
        split at hnone
        next heq => exact absurd heq hne
        next j t' heq =>
          obtain ⟨o, hlo, _, _⟩ := hids j (by rw [heq]; exact List.mem_cons_self _ _)
          rw [hlo] at hnone
          cases hnone
      · intro hc
        cases hc
  · cases hb : t.asks with
    | nil => simp [VecBook.best_ask, VecBook.best_from_levels, hb]
    | cons l rest =>
      have hl : l ∈ t.asks := hb ▸ List.mem_cons_self _ _
      obtain ⟨hne, _, hids⟩ := h.2.2.1.2 l hl
      rw [VecBook.best_ask, hb]
      constructor
      · intro hnone
        simp only [VecBook.best_from_levels] at hnone
        split at hnone
        next heq => exact absurd heq hne
        next j t' heq =>
          obtain ⟨o, hlo, _, _⟩ := hids j (by rw [heq]; exact List.mem_cons_self _ _)
          rw [hlo] at hnone
          cases hnone
      · intro hc
        cases hc

theorem claim_C9_witness :
    VecBook.empty.best_bid = none ↔ VecBook.empty.bids = [] :=
  (claim_C9 VecBook.empty VecBook.Reachable.empty).2.2.1

/-! ### Claim C1 -/

/-- Claim C1 counterexample: in the ordered-map variant, placing a second bid
at an already-occupied price succeeds, yet the new id is stored without being
indexed on either side — the store and the bid index diverge. -/
theorem claim_C1_counterexample :
    (MapBook.empty.place ⟨1, 100, 5⟩).1 = true ∧
    ((MapBook.empty.place ⟨1, 100, 5⟩).2.place ⟨2, 100, 3⟩).1 = true ∧
    lookupStore ((MapBook.empty.place ⟨1, 100, 5⟩).2.place ⟨2, 100, 3⟩).2.orders 2 =
      some ⟨2, 100, 3⟩ ∧
    ((MapBook.empty.place ⟨1, 100, 5⟩).2.place ⟨2, 100, 3⟩).2.bids = [(100, 1)] ∧
    ((MapBook.empty.place ⟨1, 100, 5⟩).2.place ⟨2, 100, 3⟩).2.asks = [] := by
  decide

/-- Claim C1 amended: in every reachable state, every id present in a Price
Index resolves in the Order Store to an order of matching price and side, in
both variants; and in the sorted-bucket variant every stored order is also
present in the Price Index of its side at its price.  (The converse direction
fails for the ordered-map variant: an order placed at an occupied price is
stored but never indexed, as the counterexample shows.) -/
theorem claim_C1_amended (s : MapBook) (hs : s.Reachable) (t : VecBook) (ht : t.Reachable) :
    (∀ e ∈ s.bids, ∃ o, lookupStore s.orders e.2 = some o ∧ o.price = e.1 ∧ 0 < o.amount) ∧
    (∀ e ∈ s.asks, ∃ o, lookupStore s.orders e.2 = some o ∧ o.price = e.1 ∧ o.amount < 0) ∧
    (∀ l ∈ t.bids, ∀ j ∈ l.ids,
       ∃ o, lookupStore t.orders j = some o ∧ o.price = l.price ∧ 0 < o.amount) ∧
    (∀ l ∈ t.asks, ∀ j ∈ l.ids,
       ∃ o, lookupStore t.orders j = some o ∧ o.price = l.price ∧ o.amount < 0) ∧
    (∀ k o, lookupStore t.orders k = some o → 0 < o.amount →
       ∃ l ∈ t.bids, l.price = o.price ∧ k ∈ l.ids) ∧
    (∀ k o, lookupStore t.orders k = some o → o.amount < 0 →
       ∃ l ∈ t.asks, l.price = o.price ∧ k ∈ l.ids) := by
  have hm := mapInv_reachable hs
  have hv := vecInv_reachable ht
  refine ⟨?_, ?_, ?_, ?_, ?_, ?_⟩
  · intro e he
    obtain ⟨o, hlo, hp, hside⟩ := hm.2.1.2 e he
    refine ⟨o, hlo, hp, ?_⟩
    simpa [is_bid] using hside
  · intro e he
    obtain ⟨o, hlo, hp, hside⟩ := hm.2.2.2 e he
    refine ⟨o, hlo, hp, ?_⟩
    have hnz := (hm.1.lookup_prop hlo).2
    simp only [is_bid, decide_eq_false_iff_not, not_lt] at hside
    omega
  · intro l hl j hj
    obtain ⟨o, hlo, hp, hside⟩ := (hv.2.1.2 l hl).2.2 j hj
    refine ⟨o, hlo, hp, ?_⟩
    simpa [is_bid] using hside
  · intro l hl j hj
    obtain ⟨o, hlo, hp, hside⟩ := (hv.2.2.1.2 l hl).2.2 j hj
    refine ⟨o, hlo, hp, ?_⟩
    have hnz := (hv.1.lookup_prop hlo).2
    simp only [is_bid, decide_eq_false_iff_not, not_lt] at hside
    omega
  · intro k o hk hpos
    exact (hv.2.2.2 k o hk).1 (by simpa [is_bid] using hpos)
  · intro k o hk hneg
    refine (hv.2.2.2 k o hk).2 ?_
    simp only [is_bid, decide_eq_false_iff_not, not_lt]
    omega

theorem claim_C1_amended_witness :
    lookupStore (MapBook.runPlaces [⟨1, 100, 5⟩]).orders 1 = some ⟨1, 100, 5⟩ ∧
    (MapBook.runPlaces [⟨1, 100, 5⟩]).bids = [(100, 1)] := by
  have h := claim_C1_amended (MapBook.runPlaces [⟨1, 100, 5⟩])
    (MapBook.Reachable.step MapBook.empty (BookOp.place ⟨1, 100, 5⟩) MapBook.Reachable.empty)
    VecBook.empty VecBook.Reachable.empty
  obtain ⟨o, hlo, hp, hpos⟩ := h.1 (100, 1) (by decide)
  exact ⟨by decide, by decide⟩

/-! ### Claim C3 -/

theorem removeFromLevels_succeeds {cmp : Int → Int → Bool} (hirr : ∀ a, cmp a a = false)
    {levels : List PriceLevel} (hs : levels.Pairwise (fun x y => cmp x.price y.price = true))
    {l0 : PriceLevel} (hm : l0 ∈ levels) {i : Nat} (hi : i ∈ l0.ids) :
    ∃ L', removeFromLevelsBy cmp l0.price i levels = some L' := by
  obtain ⟨L1, L2, heq⟩ := List.append_of_mem hm
  subst heq
  have hcm : ∀ l ∈ L1, cmp l.price l0.price = true := by
    rw [List.pairwise_append] at hs
    exact fun l hl => hs.2.2 l hl l0 (List.mem_cons_self _ _)
  have hcomp := @removeFromLevels_compute cmp l0.price i L1 l0.ids L2 hcm (hirr l0.price)
  cases hsw : swapRemove l0.ids i with
  | none =>
    rw [swapRemove_eq_none_iff] at hsw
    exact absurd hi hsw
  | some ids2 =>
    rw [hsw] at hcomp
    cases ids2 with
    | nil => exact ⟨L1 ++ L2, hcomp⟩
    | cons a t => exact ⟨L1 ++ ⟨l0.price, a :: t⟩ :: L2, hcomp⟩

theorem vec_cancel_active {t : VecBook} (h : VecInv t) {i : Nat} {cur : Order}
    (hl : lookupStore t.orders i = some cur) :
    ∃ t2, t.cancel i = (true, t2) ∧ t2.orders = eraseStore t.orders i := by
  by_cases hb : is_bid cur.amount
  · obtain ⟨l0, hml, hpl, hil⟩ := (h.2.2.2 i cur hl).1 hb
    obtain ⟨L', hr⟩ := removeFromLevels_succeeds bidBefore_irrefl h.2.1.1 hml hil
    rw [hpl] at hr
    exact ⟨_, vec_cancel_eq_bid hl hb hr, rfl⟩
  · obtain ⟨l0, hml, hpl, hil⟩ := (h.2.2.2 i cur hl).2 (by simpa using hb)
    obtain ⟨L', hr⟩ := removeFromLevels_succeeds askBefore_irrefl h.2.2.1.1 hml hil
    rw [hpl] at hr
    exact ⟨_, vec_cancel_eq_ask hl (by simpa using hb) hr, rfl⟩

theorem vec_modify_active_success {t : VecBook} (h : VecInv t) {v : Order} {prev : Order}
    (hl : lookupStore t.orders v.id = some prev) (h0 : v.amount ≠ 0) :
    (t.modify v).1 = true ∧ lookupStore (t.modify v).2.orders v.id = some v := by
  simp only [VecBook.modify, if_neg h0]
  have hc : containsStore t.orders v.id = true := containsStore_true_iff.2 ⟨prev, hl⟩
  rw [if_pos hc]
  obtain ⟨t2, hcan, ht2⟩ := vec_cancel_active h hl
  rw [hcan]
  show (t2.place v).1 = true ∧ lookupStore (t2.place v).2.orders v.id = some v
  have hfresh : lookupStore t2.orders v.id = none := by
    rw [ht2]
    exact lookupStore_erase_self _ _
  have hg : ¬(v.amount = 0 ∨ containsStore t2.orders v.id) := by
    intro hg
    rcases hg with hg | hg
    · exact h0 hg
    · rw [containsStore_false_iff.2 hfresh] at hg
      cases hg
  simp only [VecBook.place, if_neg hg]
  by_cases hb : is_bid v.amount
  · rw [if_pos hb]
    refine ⟨rfl, ?_⟩
    show lookupStore (emplaceStore t2.orders v.id v) v.id = some v
    rw [emplaceStore_fresh v hfresh]
    exact lookupStore_append_self v hfresh
  · rw [if_neg hb]
    refine ⟨rfl, ?_⟩
    show lookupStore (emplaceStore t2.orders v.id v) v.id = some v
    rw [emplaceStore_fresh v hfresh]
    exact lookupStore_append_self v hfresh

/-- Claim C3 counterexample: in the sorted-bucket variant, a same-side
same-price `modify` of an active order does not leave the Price Index
unchanged — the id is swap-removed and re-appended, reordering its price
level, so the id returned by `best_bid()` changes. -/
theorem claim_C3_counterexample :
    (VecBook.runPlaces [⟨1, 100, 5⟩, ⟨2, 100, 3⟩]).best_bid = some ⟨1, 100, 5⟩ ∧
    ((VecBook.runPlaces [⟨1, 100, 5⟩, ⟨2, 100, 3⟩]).modify ⟨1, 100, 7⟩).1 = true ∧
    ((VecBook.runPlaces [⟨1, 100, 5⟩, ⟨2, 100, 3⟩]).modify ⟨1, 100, 7⟩).2.bids ≠
      (VecBook.runPlaces [⟨1, 100, 5⟩, ⟨2, 100, 3⟩]).bids ∧
    ((VecBook.runPlaces [⟨1, 100, 5⟩, ⟨2, 100, 3⟩]).modify ⟨1, 100, 7⟩).2.best_bid =
      some ⟨2, 100, 3⟩ := by
  decide

/-- Claim C3 amended: for the ordered-map variant the claim holds as stated —
a same-side same-price `modify` of an active order returns true, replaces only
the stored value, and leaves both Price Indexes untouched.  For the
sorted-bucket variant such a `modify` returns true and updates the stored
value, but re-inserts the id at the back of its price level (the
counterexample shows the level order, and hence `best_bid()`, may change). -/
theorem claim_C3_amended (s : MapBook) (t : VecBook) (ht : t.Reachable)
    (v prevM prevV : Order)
    (hsm : lookupStore s.orders v.id = some prevM) (h0 : v.amount ≠ 0)
    (hsideM : is_bid prevM.amount = is_bid v.amount) (hpriceM : prevM.price = v.price)
    (htv : lookupStore t.orders v.id = some prevV)
    (hsideV : is_bid prevV.amount = is_bid v.amount) (hpriceV : prevV.price = v.price) :
    s.modify v = (true, ⟨replaceStore s.orders v.id v, s.bids, s.asks⟩) ∧
    (t.modify v).1 = true ∧ lookupStore (t.modify v).2.orders v.id = some v := by
  constructor
  · rw [MapBook.modify_eq, if_neg h0]
    simp only [hsm]
    rw [if_pos ⟨hsideM, hpriceM⟩]
  · exact vec_modify_active_success (vecInv_reachable ht) htv h0

theorem claim_C3_amended_witness :
    (MapBook.runPlaces [⟨1, 100, 5⟩]).modify ⟨1, 100, 7⟩ =
      (true, ⟨[(1, ⟨1, 100, 7⟩)], [(100, 1)], []⟩) ∧
    ((VecBook.runPlaces [⟨1, 100, 5⟩]).modify ⟨1, 100, 7⟩).1 = true := by
  have h := claim_C3_amended (MapBook.runPlaces [⟨1, 100, 5⟩])
    (VecBook.runPlaces [⟨1, 100, 5⟩])
    (VecBook.Reachable.step VecBook.empty (BookOp.place ⟨1, 100, 5⟩) VecBook.Reachable.empty)
    ⟨1, 100, 7⟩ ⟨1, 100, 5⟩ ⟨1, 100, 5⟩
    (by decide) (by decide) (by decide) (by decide) (by decide) (by decide) (by decide)
  refine ⟨?_, h.2.1⟩
  rw [h.1]
  decide

/-! ### Claim C10 -/

/-- An id that is active in the Order Store (stored under its own id) but
appears as a value in neither Price Index of the map book. -/
def ShadowedM (b : MapBook) (i : Nat) : Prop :=
  (∃ o, lookupStore b.orders i = some o ∧ o.id = i) ∧
  (∀ e ∈ b.bids, e.2 ≠ i) ∧ (∀ e ∈ b.asks, e.2 ≠ i)

theorem shadowedM_cancel_self {b : MapBook} {i : Nat} (h : ShadowedM b i) :
    b.cancel i = (false, b) := by
  obtain ⟨⟨o, hl, hid⟩, hbid, hask⟩ := h
  have hrb : removeKeyId o.price i b.bids = none :=
    removeKeyId_eq_none_iff.2 (fun hc => hbid _ hc rfl)
  have hra : removeKeyId o.price i b.asks = none :=
    removeKeyId_eq_none_iff.2 (fun hc => hask _ hc rfl)
  have hrem : b.remove_from_book o = none := by
    rw [MapBook.remove_from_book]
    by_cases hb : is_bid o.amount
    · rw [if_pos hb, hid, hrb]
      rfl
    · rw [if_neg hb, hid, hra]
      rfl
  simp only [MapBook.cancel, hl, hrem]

theorem shadowedM_place {b : MapBook} {i : Nat} (h : ShadowedM b i) (v : Order) :
    ShadowedM (b.place v).2 i := by
  rw [MapBook.place_eq]
  by_cases hg : v.amount = 0 ∨ containsStore b.orders v.id
  · rw [if_pos hg]
    exact h
  · rw [if_neg hg]
    push_neg at hg
    have hfresh : lookupStore b.orders v.id = none :=
      containsStore_false_iff.1 (by simpa using hg.2)
    obtain ⟨⟨o, hl, hid⟩, hbid, hask⟩ := h
    have hne : i ≠ v.id := by
      intro hc
      rw [← hc, hl] at hfresh
      cases hfresh
    by_cases hb : is_bid v.amount
    · rw [if_pos hb]
      refine ⟨⟨o, ?_, hid⟩, ?_, hask⟩
      · show lookupStore (emplaceStore b.orders v.id v) i = some o
        rw [emplaceStore_fresh v hfresh, lookupStore_append_of_ne v hne]
        exact hl
      · intro e he
        rcases mem_emplaceBy he with hm | heq
        · exact hbid e hm
        · rw [heq]
          exact fun hc => hne hc.symm
    · rw [if_neg hb]
      refine ⟨⟨o, ?_, hid⟩, hbid, ?_⟩
      · show lookupStore (emplaceStore b.orders v.id v) i = some o
        rw [emplaceStore_fresh v hfresh, lookupStore_append_of_ne v hne]
        exact hl
      · intro e he
        rcases mem_emplaceBy he with hm | heq
        · exact hask e hm
        · rw [heq]
          exact fun hc => hne hc.symm

theorem shadowedM_cancel_any {b : MapBook} {i : Nat} (h : ShadowedM b i) (j : Nat) :
    ShadowedM (b.cancel j).2 i := by
  by_cases hji : j = i
  · subst hji
    rw [shadowedM_cancel_self h]
    exact h
  · rcases map_cancel_cases b j with hc | hc
    · rw [hc]
      exact h
    · obtain ⟨v, b2, hl, hr⟩ := map_cancel_true_decomp hc
      rw [map_cancel_eq_of hl hr]
      obtain ⟨⟨o, hlo, hid⟩, hbid, hask⟩ := h
      have hij : i ≠ j := fun hc2 => hji hc2.symm
      rcases map_remove_decomp hr with ⟨hb, l', hrem, hb2⟩ | ⟨hb, l', hrem, hb2⟩
      · subst hb2
        refine ⟨⟨o, ?_, hid⟩, ?_, hask⟩
        · rw [lookupStore_erase_ne hij]
          exact hlo
        · intro e he
          exact hbid e ((removeKeyId_sublist hrem).mem he)
      · subst hb2
        refine ⟨⟨o, ?_, hid⟩, hbid, ?_⟩
        · rw [lookupStore_erase_ne hij]
          exact hlo
        · intro e he
          exact hask e ((removeKeyId_sublist hrem).mem he)

theorem shadowedM_modify {b : MapBook} {i : Nat} (h : ShadowedM b i) (v : Order) :
    ShadowedM (b.modify v).2 i := by
  by_cases h0 : v.amount = 0
  · rw [show b.modify v = b.cancel v.id by simp [MapBook.modify, h0]]
    exact shadowedM_cancel_any h v.id
  · rw [MapBook.modify_eq, if_neg h0]
    split
    · exact h
    next previous hl =>
      obtain ⟨⟨o, hlo, hid⟩, hbid, hask⟩ := h
      by_cases hsame : is_bid previous.amount = is_bid v.amount ∧ previous.price = v.price
      · rw [if_pos hsame]
        by_cases hvi : v.id = i
        · refine ⟨⟨v, ?_, hvi⟩, hbid, hask⟩
          rw [← hvi]
          exact lookupStore_replace_self hl v
        · refine ⟨⟨o, ?_, hid⟩, hbid, hask⟩
          rw [lookupStore_replace_ne v (fun hc => hvi hc.symm)]
          exact hlo
      · rw [if_neg hsame]
        split
        · exact ⟨⟨o, hlo, hid⟩, hbid, hask⟩
        next b2 hr =>
          rcases map_remove_decomp hr with ⟨hb, l', hrem, hb2⟩ | ⟨hb, l', hrem, hb2⟩
          · subst hb2
            have hbid' : ∀ e ∈ l', e.2 ≠ i := fun e he => hbid e ((removeKeyId_sublist hrem).mem he)
            by_cases hvi : v.id = i
            · exfalso
              have hpo : previous = o := by
                rw [hvi] at hl
                rw [hl] at hlo
                exact Option.some.inj hlo
              have hmem : (previous.price, previous.id) ∈ b.bids := by
                obtain ⟨l1, l2, heq, _, _⟩ := removeKeyId_spec hrem
                rw [heq]
                exact List.mem_append.2 (Or.inr (List.mem_cons_self _ _))
              have hpid : previous.id = i := by rw [hpo, hid]
              exact hbid _ hmem hpid
            · have hne : i ≠ v.id := fun hc => hvi hc.symm
              by_cases hvb : is_bid v.amount
              · rw [if_pos hvb]
                refine ⟨⟨o, ?_, hid⟩, ?_, hask⟩
                · rw [lookupStore_replace_ne v hne]
                  exact hlo
                · intro e he
                  rcases mem_emplaceBy he with hm | heq
                  · exact hbid' e hm
                  · rw [heq]
                    exact fun hc => hvi hc
              · rw [if_neg hvb]
                refine ⟨⟨o, ?_, hid⟩, hbid', ?_⟩
                · rw [lookupStore_replace_ne v hne]
                  exact hlo
                · intro e he
                  rcases mem_emplaceBy he with hm | heq
                  · exact hask e hm
                  · rw [heq]
                    exact fun hc => hvi hc
          · subst hb2
            have hask' : ∀ e ∈ l', e.2 ≠ i := fun e he => hask e ((removeKeyId_sublist hrem).mem he)
            by_cases hvi : v.id = i
            · exfalso
              have hpo : previous = o := by
                rw [hvi] at hl
                rw [hl] at hlo
                exact Option.some.inj hlo
              have hmem : (previous.price, previous.id) ∈ b.asks := by
                obtain ⟨l1, l2, heq, _, _⟩ := removeKeyId_spec hrem
                rw [heq]
                exact List.mem_append.2 (Or.inr (List.mem_cons_self _ _))
              have hpid : previous.id = i := by rw [hpo, hid]
              exact hask _ hmem hpid
            · have hne : i ≠ v.id := fun hc => hvi hc.symm
              by_cases hvb : is_bid v.amount
              · rw [if_pos hvb]
                refine ⟨⟨o, ?_, hid⟩, ?_, hask'⟩
                · rw [lookupStore_replace_ne v hne]
                  exact hlo
                · intro e he
                  rcases mem_emplaceBy he with hm | heq
                  · exact hbid e hm
                  · rw [heq]
                    exact fun hc => hvi hc
              · rw [if_neg hvb]
                refine ⟨⟨o, ?_, hid⟩, hbid, ?_⟩
                · rw [lookupStore_replace_ne v hne]
                  exact hlo
                · intro e he
                  rcases mem_emplaceBy he with hm | heq
                  · exact hask' e hm
                  · rw [heq]
                    exact fun hc => hvi hc

theorem shadowedM_step {b : MapBook} {i : Nat} (h : ShadowedM b i) (op : BookOp) :
    ShadowedM (b.step op) i := by
  cases op with
  | place o => exact shadowedM_place h o
  | modify o => exact shadowedM_modify h o
  | cancel j => exact shadowedM_cancel_any h j

theorem shadowedM_runOps {b : MapBook} {i : Nat} (h : ShadowedM b i) (ops : List BookOp) :
    ShadowedM (b.runOps ops) i := by
  induction ops generalizing b with
  | nil => exact h
  | cons op rest ih => exact ih (shadowedM_step h op)

/-- Claim C10: in the ordered-map book, if `place` succeeds for an order whose
side already holds an index entry at its price (so the id is never written
into the index), then after any further sequence of operations `cancel` of
that id returns false without changing the state, while the id remains in the
Order Store: the order is permanently active. -/
theorem claim_C10 (s : MapBook) (hs : s.Reachable) (o : Order)
    (hfresh : lookupStore s.orders o.id = none) (h0 : o.amount ≠ 0)
    (hocc : ∃ j, (o.price, j) ∈ (if is_bid o.amount then s.bids else s.asks)) :
    (s.place o).1 = true ∧ ShadowedM (s.place o).2 o.id ∧
    ∀ ops : List BookOp,
      (MapBook.runOps (s.place o).2 ops).cancel o.id =
        (false, MapBook.runOps (s.place o).2 ops) ∧
      containsStore (MapBook.runOps (s.place o).2 ops).orders o.id = true := by
  have hinv := mapInv_reachable hs
  have hg : ¬(o.amount = 0 ∨ containsStore s.orders o.id) := by
    intro hg
    rcases hg with hg | hg
    · exact h0 hg
    · rw [containsStore_false_iff.2 hfresh] at hg
      cases hg
  have hplace : (s.place o).1 = true ∧ ShadowedM (s.place o).2 o.id := by
    rw [MapBook.place_eq, if_neg hg]
    by_cases hb : is_bid o.amount
    · rw [if_pos hb]
      rw [if_pos hb] at hocc
      obtain ⟨j, hj⟩ := hocc
      refine ⟨rfl, ⟨o, ?_, rfl⟩, ?_, ?_⟩
      · show lookupStore (emplaceStore s.orders o.id o) o.id = some o
        rw [emplaceStore_fresh o hfresh]
        exact lookupStore_append_self o hfresh
      · show ∀ e ∈ emplaceBy bidBefore o.price o.id s.bids, e.2 ≠ o.id
        rw [emplaceBy_of_key_found bidBefore_asym o.id hinv.2.1.1 hj]
        exact hinv.2.1.value_ne_of_none hfresh
      · exact hinv.2.2.value_ne_of_none hfresh
    · rw [if_neg hb]
      rw [if_neg hb] at hocc
      obtain ⟨j, hj⟩ := hocc
      refine ⟨rfl, ⟨o, ?_, rfl⟩, ?_, ?_⟩
      · show lookupStore (emplaceStore s.orders o.id o) o.id = some o
        rw [emplaceStore_fresh o hfresh]
        exact lookupStore_append_self o hfresh
      · exact hinv.2.1.value_ne_of_none hfresh
      · show ∀ e ∈ emplaceBy askBefore o.price o.id s.asks, e.2 ≠ o.id
        rw [emplaceBy_of_key_found askBefore_asym o.id hinv.2.2.1 hj]
        exact hinv.2.2.value_ne_of_none hfresh
  refine ⟨hplace.1, hplace.2, ?_⟩
  intro ops
  have hsh := shadowedM_runOps hplace.2 ops
  refine ⟨shadowedM_cancel_self hsh, ?_⟩
  obtain ⟨⟨o', hl', _⟩, _, _⟩ := hsh
  exact containsStore_true_iff.2 ⟨o', hl'⟩

theorem claim_C10_witness :
    ((MapBook.runPlaces [⟨1, 100, 5⟩]).place ⟨2, 100, 3⟩).1 = true ∧
    (MapBook.runOps ((MapBook.runPlaces [⟨1, 100, 5⟩]).place ⟨2, 100, 3⟩).2
        [BookOp.cancel 1, BookOp.place ⟨3, 100, 7⟩]).cancel 2 =
      (false, MapBook.runOps ((MapBook.runPlaces [⟨1, 100, 5⟩]).place ⟨2, 100, 3⟩).2
        [BookOp.cancel 1, BookOp.place ⟨3, 100, 7⟩]) := by
  have h := claim_C10 (MapBook.runPlaces [⟨1, 100, 5⟩])
    (MapBook.Reachable.step MapBook.empty (BookOp.place ⟨1, 100, 5⟩) MapBook.Reachable.empty)
    ⟨2, 100, 3⟩ (by decide) (by decide) ⟨1, by decide⟩
  exact ⟨h.1, (h.2.2 [BookOp.cancel 1, BookOp.place ⟨3, 100, 7⟩]).1⟩

/-! ### Claim C2 -/

/-- After place-only histories of the map book, every active order has its
price present as a key of its side's index (the completeness that cancel can
later destroy for this variant). -/
def MapComplete (b : MapBook) : Prop :=
  ∀ k o, lookupStore b.orders k = some o →
    (is_bid o.amount = true → ∃ j, (o.price, j) ∈ b.bids) ∧
    (is_bid o.amount = false → ∃ j, (o.price, j) ∈ b.asks)

theorem mapComplete_empty : MapComplete MapBook.empty := by
  intro k o hk
  simp [lookupStore] at hk

theorem mapComplete_place {b : MapBook} (h : MapComplete b) (v : Order) :
    MapComplete (b.place v).2 := by
  rw [MapBook.place_eq]
  by_cases hg : v.amount = 0 ∨ containsStore b.orders v.id
  · rw [if_pos hg]
    exact h
  · rw [if_neg hg]
    push_neg at hg
    have hfresh : lookupStore b.orders v.id = none :=
      containsStore_false_iff.1 (by simpa using hg.2)
    by_cases hb : is_bid v.amount
    · rw [if_pos hb]
      intro k o hk
      rw [emplaceStore_fresh v hfresh] at hk
      by_cases hki : k = v.id
      · subst hki
        rw [lookupStore_append_self v hfresh] at hk
        cases hk
        constructor
        · intro _
          exact emplaceBy_key_mem bidBefore v.price v.id b.bids
        · intro hfalse
          rw [hb] at hfalse
          cases hfalse
      · rw [lookupStore_append_of_ne v hki] at hk
        obtain ⟨h1, h2⟩ := h k o hk
        constructor
        · intro hs
          obtain ⟨j, hj⟩ := h1 hs
          exact ⟨j, emplaceBy_mem hj⟩
        · exact h2
    · rw [if_neg hb]
      intro k o hk
      rw [emplaceStore_fresh v hfresh] at hk
      by_cases hki : k = v.id
      · subst hki
        rw [lookupStore_append_self v hfresh] at hk
        cases hk
        constructor
        · intro htrue
          exact absurd htrue (by simpa using hb)
        · intro _
          exact emplaceBy_key_mem askBefore v.price v.id b.asks
      · rw [lookupStore_append_of_ne v hki] at hk
        obtain ⟨h1, h2⟩ := h k o hk
        constructor
        · exact h1
        · intro hs
          obtain ⟨j, hj⟩ := h2 hs
          exact ⟨j, emplaceBy_mem hj⟩

theorem mapInv_complete_fold (l : List Order) :
    ∀ b : MapBook, MapInv b → MapComplete b →
      MapInv (l.foldl (fun s o => (s.place o).2) b) ∧
      MapComplete (l.foldl (fun s o => (s.place o).2) b) := by
  induction l with
  | nil =>
    intro b h1 h2
    exact ⟨h1, h2⟩
  | cons o rest ih =>
    intro b h1 h2
    exact ih _ (mapInv_place h1 o) (mapComplete_place h2 o)

theorem vec_runPlaces_reachable (l : List Order) : (VecBook.runPlaces l).Reachable := by
  have haux : ∀ b : VecBook, b.Reachable →
      (l.foldl (fun s o => (s.place o).2) b).Reachable := by
    induction l with
    | nil => exact fun b hb => hb
    | cons o rest ih => exact fun b hb => ih _ (VecBook.Reachable.step b (BookOp.place o) hb)
  exact haux VecBook.empty VecBook.Reachable.empty

theorem map_best_spec {cmp : Int → Int → Bool} {side : Bool} {orders : List (Nat × Order)}
    {entries : List (Int × Nat)} (hWF : StoreWF orders)
    (hg : GoodSide cmp side orders entries)
    (hcomp : ∀ k o', lookupStore orders k = some o' → is_bid o'.amount = side →
       ∃ j, (o'.price, j) ∈ entries) :
    (∀ o, MapBook.best_from_book orders entries = some o →
       lookupStore orders o.id = some o ∧ is_bid o.amount = side ∧
       ∀ k o', lookupStore orders k = some o' → is_bid o'.amount = side →
         o'.price = o.price ∨ cmp o.price o'.price = true) ∧
    (MapBook.best_from_book orders entries = none ↔
       ∀ k o', lookupStore orders k = some o' → is_bid o'.amount ≠ side) := by
  cases hent : entries with
  | nil =>
    subst hent
    constructor
    · intro o hbest
      cases hbest
    · constructor
      · intro _ k o' hk hside
        obtain ⟨j, hj⟩ := hcomp k o' hk hside
        cases hj
      · intro _
        rfl
  | cons e rest =>
    subst hent
    obtain ⟨p, jh⟩ := e
    obtain ⟨oh, hloh, hph, hsh⟩ := hg.2 (p, jh) (List.mem_cons_self _ _)
    have hbest : MapBook.best_from_book orders ((p, jh) :: rest) = some oh := hloh
    constructor
    · intro o hb
      rw [hbest] at hb
      cases hb
      have hid : oh.id = jh := (hWF.lookup_prop hloh).1
      refine ⟨by rw [hid]; exact hloh, hsh, ?_⟩
      intro k o' hk hside
      obtain ⟨j', hj'⟩ := hcomp k o' hk hside
      rcases List.mem_cons.1 hj' with heq | hmem
      · left
        have hpp : o'.price = p := congrArg Prod.fst heq
        rw [hpp, hph]
      · right
        have hrel := (List.pairwise_cons.1 hg.1).1 (o'.price, j') hmem
        rw [hph]
        exact hrel
    · rw [hbest]
      constructor
      · intro hc
        cases hc
      · intro hall
        exact absurd hsh (hall jh oh hloh)

theorem vec_best_spec {cmp : Int → Int → Bool} {side : Bool} {orders : List (Nat × Order)}
    {levels : List PriceLevel} (hWF : StoreWF orders)
    (hg : GoodLevels cmp side orders levels)
    (hcomp : ∀ k o', lookupStore orders k = some o' → is_bid o'.amount = side →
       ∃ l ∈ levels, l.price = o'.price ∧ k ∈ l.ids) :
    (∀ o, VecBook.best_from_levels orders levels = some o →
       lookupStore orders o.id = some o ∧ is_bid o.amount = side ∧
       ∀ k o', lookupStore orders k = some o' → is_bid o'.amount = side →
         o'.price = o.price ∨ cmp o.price o'.price = true) ∧
    (VecBook.best_from_levels orders levels = none ↔
       ∀ k o', lookupStore orders k = some o' → is_bid o'.amount ≠ side) := by
  cases hent : levels with
  | nil =>
    subst hent
    constructor
    · intro o hbest
      cases hbest
    · constructor
      · intro _ k o' hk hside
        obtain ⟨l, hl, _⟩ := hcomp k o' hk hside
        cases hl
      · intro _
        rfl
  | cons l0 rest =>
    subst hent
    obtain ⟨hne, hnd, hids⟩ := hg.2 l0 (List.mem_cons_self _ _)
    cases hids0 : l0.ids with
    | nil => exact absurd hids0 hne
    | cons j t =>
      obtain ⟨oh, hloh, hph, hsh⟩ := hids j (by rw [hids0]; exact List.mem_cons_self _ _)
      have hbest : VecBook.best_from_levels orders (l0 :: rest) = some oh := by
        simp only [VecBook.best_from_levels]
        rw [hids0]
        exact hloh
      constructor
      · intro o hb
        rw [hbest] at hb
        cases hb
        have hid : oh.id = j := (hWF.lookup_prop hloh).1
        refine ⟨by rw [hid]; exact hloh, hsh, ?_⟩
        intro k o' hk hside
        obtain ⟨l', hl', hpl', _⟩ := hcomp k o' hk hside
        rcases List.mem_cons.1 hl' with heq | hmem
        · left
          rw [← hpl', heq, ← hph]
        · right
          have hrel := (List.pairwise_cons.1 hg.1).1 l' hmem
          rw [hph, ← hpl']
          exact hrel
      · rw [hbest]
        constructor
        · intro hc
          cases hc
        · intro hall
          exact absurd hsh (hall j oh hloh)

/-- Claim C2: after any sequence of place calls (and no modify/cancel), in
both variants, `best_bid()` returns an active order of numerically highest
price among bids (amount > 0), `best_ask()` one of lowest price among asks
(amount < 0), and each returns none exactly when no active order exists on
that side. -/
theorem claim_C2 (l : List Order) :
    ((∀ o, (MapBook.runPlaces l).best_bid = some o →
        lookupStore (MapBook.runPlaces l).orders o.id = some o ∧ 0 < o.amount ∧
        ∀ k o', lookupStore (MapBook.runPlaces l).orders k = some o' → 0 < o'.amount →
          o'.price ≤ o.price) ∧
     ((MapBook.runPlaces l).best_bid = none ↔
        ∀ k o', lookupStore (MapBook.runPlaces l).orders k = some o' → ¬(0 < o'.amount))) ∧
    ((∀ o, (MapBook.runPlaces l).best_ask = some o →
        lookupStore (MapBook.runPlaces l).orders o.id = some o ∧ o.amount < 0 ∧
        ∀ k o', lookupStore (MapBook.runPlaces l).orders k = some o' → o'.amount < 0 →
          o.price ≤ o'.price) ∧
     ((MapBook.runPlaces l).best_ask = none ↔
        ∀ k o', lookupStore (MapBook.runPlaces l).orders k = some o' → ¬(o'.amount < 0))) ∧
    ((∀ o, (VecBook.runPlaces l).best_bid = some o →
        lookupStore (VecBook.runPlaces l).orders o.id = some o ∧ 0 < o.amount ∧
        ∀ k o', lookupStore (VecBook.runPlaces l).orders k = some o' → 0 < o'.amount →
          o'.price ≤ o.price) ∧
     ((VecBook.runPlaces l).best_bid = none ↔
        ∀ k o', lookupStore (VecBook.runPlaces l).orders k = some o' → ¬(0 < o'.amount))) ∧
    ((∀ o, (VecBook.runPlaces l).best_ask = some o →
        lookupStore (VecBook.runPlaces l).orders o.id = some o ∧ o.amount < 0 ∧
        ∀ k o', lookupStore (VecBook.runPlaces l).orders k = some o' → o'.amount < 0 →
          o.price ≤ o'.price) ∧
     ((VecBook.runPlaces l).best_ask = none ↔
        ∀ k o', lookupStore (VecBook.runPlaces l).orders k = some o' → ¬(o'.amount < 0))) := by
  obtain ⟨hinv, hcomp⟩ := mapInv_complete_fold l MapBook.empty mapInv_empty mapComplete_empty
  have hvinv := vecInv_reachable (vec_runPlaces_reachable l)
  have hmbid := map_best_spec hinv.1 hinv.2.1
    (fun k o' hk hs => (hcomp k o' hk).1 hs)
  have hmask := map_best_spec hinv.1 hinv.2.2
    (fun k o' hk hs => (hcomp k o' hk).2 hs)
  have hvbid := vec_best_spec hvinv.1 hvinv.2.1
    (fun k o' hk hs => (hvinv.2.2.2 k o' hk).1 hs)
  have hvask := vec_best_spec hvinv.1 hvinv.2.2.1
    (fun k o' hk hs => (hvinv.2.2.2 k o' hk).2 hs)
  simp only [MapBook.runPlaces, MapBook.best_bid, MapBook.best_ask,
    VecBook.best_bid, VecBook.best_ask]
  refine ⟨⟨?_, ?_⟩, ⟨?_, ?_⟩, ⟨?_, ?_⟩, ⟨?_, ?_⟩⟩
  · intro o hb
    obtain ⟨h1, h2, h3⟩ := hmbid.1 o hb
    refine ⟨h1, by simpa [is_bid] using h2, ?_⟩
    intro k o' hk hpos
    rcases h3 k o' hk (by simpa [is_bid] using hpos) with he | hlt
    · omega
    · simp only [bidBefore, decide_eq_true_eq] at hlt
      omega
  · rw [hmbid.2]
    constructor
    · intro hall k o' hk
      have := hall k o' hk
      simpa [is_bid] using this
    · intro hall k o' hk
      have := hall k o' hk
      simpa [is_bid] using this
  · intro o hb
    obtain ⟨h1, h2, h3⟩ := hmask.1 o hb
    have hnz := (hinv.1.lookup_prop h1).2
    refine ⟨h1, ?_, ?_⟩
    · simp only [is_bid, decide_eq_false_iff_not, not_lt] at h2
      omega
    · intro k o' hk hneg
      rcases h3 k o' hk (by simp only [is_bid, decide_eq_false_iff_not, not_lt]; omega) with he | hlt
      · omega
      · simp only [askBefore, decide_eq_true_eq] at hlt
        omega
  · rw [hmask.2]
    constructor
    · intro hall k o' hk
      have hb := hall k o' hk
      intro hcon
      apply hb
      simp only [is_bid, decide_eq_false_iff_not, not_lt]
      omega
    · intro hall k o' hk
      have hb := hall k o' hk
      have hnz := (hinv.1.lookup_prop hk).2
      simp only [is_bid, ne_eq, decide_eq_false_iff_not, not_not]
      omega
  · intro o hb
    obtain ⟨h1, h2, h3⟩ := hvbid.1 o hb
    refine ⟨h1, by simpa [is_bid] using h2, ?_⟩
    intro k o' hk hpos
    rcases h3 k o' hk (by simpa [is_bid] using hpos) with he | hlt
    · omega
    · simp only [bidBefore, decide_eq_true_eq] at hlt
      omega
  · rw [hvbid.2]
    constructor
    · intro hall k o' hk
      have := hall k o' hk
      simpa [is_bid] using this
    · intro hall k o' hk
      have := hall k o' hk
      simpa [is_bid] using this
  · intro o hb
    obtain ⟨h1, h2, h3⟩ := hvask.1 o hb
    have hnz := (hvinv.1.lookup_prop h1).2
    refine ⟨h1, ?_, ?_⟩
    · simp only [is_bid, decide_eq_false_iff_not, not_lt] at h2
      omega
    · intro k o' hk hneg
      rcases h3 k o' hk (by simp only [is_bid, decide_eq_false_iff_not, not_lt]; omega) with he | hlt
      · omega
      · simp only [askBefore, decide_eq_true_eq] at hlt
        omega
  · rw [hvask.2]
    constructor
    · intro hall k o' hk
      have hb := hall k o' hk
      intro hcon
      apply hb
      simp only [is_bid, decide_eq_false_iff_not, not_lt]
      omega
    · intro hall k o' hk
      have hb := hall k o' hk
      have hnz := (hvinv.1.lookup_prop hk).2
      simp only [is_bid, ne_eq, decide_eq_false_iff_not, not_not]
      omega

theorem claim_C2_witness :
    (MapBook.runPlaces [⟨1, 100, 5⟩, ⟨2, 99, 7⟩, ⟨3, 101, 1⟩]).best_bid = some ⟨3, 101, 1⟩ ∧
    (VecBook.runPlaces [⟨1, 100, 5⟩, ⟨2, 99, 7⟩, ⟨3, 101, 1⟩]).best_bid = some ⟨3, 101, 1⟩ ∧
    (100 : Int) ≤ 101 := by
  have h := claim_C2 [⟨1, 100, 5⟩, ⟨2, 99, 7⟩, ⟨3, 101, 1⟩]
  exact ⟨by decide, by decide,
    (h.1.1 ⟨3, 101, 1⟩ (by decide)).2.2 1 ⟨1, 100, 5⟩ (by decide) (by decide)⟩

/-! ### Claim C8 -/

theorem best_from_book_append_orders {orders : List (Nat × Order)}
    {entries : List (Int × Nat)} {i : Nat} {o : Order}
    (hne : ∀ e ∈ entries, e.2 ≠ i) :
    MapBook.best_from_book (orders ++ [(i, o)]) entries =
      MapBook.best_from_book orders entries := by
  cases entries with
  | nil => rfl
  | cons e rest =>
    obtain ⟨q, j⟩ := e
    show lookupStore (orders ++ [(i, o)]) j = lookupStore orders j
    exact lookupStore_append_of_ne o (hne (q, j) (List.mem_cons_self _ _))

theorem map_cancel_lit_bid_none (os : List (Nat × Order)) (bs as : List (Int × Nat))
    {i : Nat} {v : Order} (hl : lookupStore os i = some v) (hb : is_bid v.amount = true)
    (hrem : removeKeyId v.price v.id bs = none) :
    (MapBook.mk os bs as).cancel i = (false, MapBook.mk os bs as) := by
  have hremove : (MapBook.mk os bs as).remove_from_book v = none := by
    rw [MapBook.remove_from_book_bid hb]
    show (removeKeyId v.price v.id bs).map (fun l => MapBook.mk os l as) = none
    rw [hrem]
    rfl
  simp only [MapBook.cancel, hl, hremove]

theorem map_cancel_lit_ask_none (os : List (Nat × Order)) (bs as : List (Int × Nat))
    {i : Nat} {v : Order} (hl : lookupStore os i = some v) (hb : is_bid v.amount = false)
    (hrem : removeKeyId v.price v.id as = none) :
    (MapBook.mk os bs as).cancel i = (false, MapBook.mk os bs as) := by
  have hremove : (MapBook.mk os bs as).remove_from_book v = none := by
    rw [MapBook.remove_from_book_ask hb]
    show (removeKeyId v.price v.id as).map (fun l => MapBook.mk os bs l) = none
    rw [hrem]
    rfl
  simp only [MapBook.cancel, hl, hremove]

theorem map_cancel_lit_bid_some (os : List (Nat × Order)) (bs as : List (Int × Nat))
    {i : Nat} {v : Order} {l' : List (Int × Nat)}
    (hl : lookupStore os i = some v) (hb : is_bid v.amount = true)
    (hrem : removeKeyId v.price v.id bs = some l') :
    (MapBook.mk os bs as).cancel i = (true, MapBook.mk (eraseStore os i) l' as) := by
  have hremove : (MapBook.mk os bs as).remove_from_book v = some (MapBook.mk os l' as) := by
    rw [MapBook.remove_from_book_bid hb]
    show (removeKeyId v.price v.id bs).map (fun l => MapBook.mk os l as) = some (MapBook.mk os l' as)
    rw [hrem]
    rfl
  simp only [MapBook.cancel, hl, hremove]

theorem map_cancel_lit_ask_some (os : List (Nat × Order)) (bs as : List (Int × Nat))
    {i : Nat} {v : Order} {l' : List (Int × Nat)}
    (hl : lookupStore os i = some v) (hb : is_bid v.amount = false)
    (hrem : removeKeyId v.price v.id as = some l') :
    (MapBook.mk os bs as).cancel i = (true, MapBook.mk (eraseStore os i) bs l') := by
  have hremove : (MapBook.mk os bs as).remove_from_book v = some (MapBook.mk os bs l') := by
    rw [MapBook.remove_from_book_ask hb]
    show (removeKeyId v.price v.id as).map (fun l => MapBook.mk os bs l) = some (MapBook.mk os bs l')
    rw [hrem]
    rfl
  simp only [MapBook.cancel, hl, hremove]

theorem vec_cancel_lit_bid_some (os : List (Nat × Order)) (bs as : List PriceLevel)
    {i : Nat} {cur : Order} {L' : List PriceLevel}
    (hl : lookupStore os i = some cur) (hb : is_bid cur.amount = true)
    (hr : removeFromLevelsBy bidBefore cur.price i bs = some L') :
    (VecBook.mk os bs as).cancel i = (true, VecBook.mk (eraseStore os i) L' as) := by
  simp only [VecBook.cancel, hl, if_pos hb, hr]

theorem vec_cancel_lit_ask_some (os : List (Nat × Order)) (bs as : List PriceLevel)
    {i : Nat} {cur : Order} {L' : List PriceLevel}
    (hl : lookupStore os i = some cur) (hb : is_bid cur.amount = false)
    (hr : removeFromLevelsBy askBefore cur.price i as = some L') :
    (VecBook.mk os bs as).cancel i = (true, VecBook.mk (eraseStore os i) bs L') := by
  simp only [VecBook.cancel, hl, hb, hr]
  rfl

/-- Claim C8 counterexample: `place` of an order whose id is already active
fails without changing state, but the following `cancel` then removes the
pre-existing order, so best_bid does not return to its pre-place value. -/
theorem claim_C8_counterexample :
    (MapBook.empty.place ⟨1, 100, 5⟩).2.best_bid = some ⟨1, 100, 5⟩ ∧
    ((MapBook.empty.place ⟨1, 100, 5⟩).2.place ⟨1, 100, 7⟩).1 = false ∧
    ((((MapBook.empty.place ⟨1, 100, 5⟩).2.place ⟨1, 100, 7⟩).2).cancel 1).1 = true ∧
    ((((MapBook.empty.place ⟨1, 100, 5⟩).2.place ⟨1, 100, 7⟩).2).cancel 1).2.best_bid = none := by
  decide

/-- Claim C8 amended: in both variants, for every reachable state and every
order whose id is NOT currently active, `place(o)` followed by
`cancel(o.id)` leaves `best_bid()` and `best_ask()` at their pre-place
values.  (The restriction is forced by the counterexample: with an active id
the failed place is followed by a cancel that removes the pre-existing
order.) -/
theorem claim_C8_amended (s : MapBook) (hs : s.Reachable) (t : VecBook) (ht : t.Reachable)
    (o : Order) (hm : lookupStore s.orders o.id = none)
    (hv : lookupStore t.orders o.id = none) :
    (((s.place o).2.cancel o.id).2.best_bid = s.best_bid ∧
     ((s.place o).2.cancel o.id).2.best_ask = s.best_ask) ∧
    (((t.place o).2.cancel o.id).2.best_bid = t.best_bid ∧
     ((t.place o).2.cancel o.id).2.best_ask = t.best_ask) := by
  have hinvM := mapInv_reachable hs
  have hinvV := vecInv_reachable ht
  constructor
  · by_cases h0 : o.amount = 0
    · have hplace : s.place o = (false, s) := by
        rw [MapBook.place_eq, if_pos (Or.inl h0)]
      have hcancel : s.cancel o.id = (false, s) := by
        simp only [MapBook.cancel, hm]
      have hstate : ((s.place o).2.cancel o.id).2 = s := by
        rw [hplace]
        show (s.cancel o.id).2 = s
        rw [hcancel]
      rw [hstate]
      exact ⟨rfl, rfl⟩
    · have hg : ¬(o.amount = 0 ∨ containsStore s.orders o.id) := by
        intro hg
        rcases hg with hg | hg
        · exact h0 hg
        · rw [containsStore_false_iff.2 hm] at hg
          cases hg
      have hlook1 : lookupStore (s.orders ++ [(o.id, o)]) o.id = some o :=
        lookupStore_append_self o hm
      by_cases hb : is_bid o.amount
      · have hplace : (s.place o).2 =
            MapBook.mk (s.orders ++ [(o.id, o)]) (emplaceBy bidBefore o.price o.id s.bids) s.asks := by
          rw [MapBook.place_eq, if_neg hg, if_pos hb]
          show MapBook.mk (emplaceStore s.orders o.id o)
              (emplaceBy bidBefore o.price o.id s.bids) s.asks = _
          rw [emplaceStore_fresh o hm]
        by_cases hocc : ∃ j, (o.price, j) ∈ s.bids
        · obtain ⟨j0, hj0⟩ := hocc
          have hbids1 : emplaceBy bidBefore o.price o.id s.bids = s.bids :=
            emplaceBy_of_key_found bidBefore_asym o.id hinvM.2.1.1 hj0
          have hrem : removeKeyId o.price o.id (emplaceBy bidBefore o.price o.id s.bids) = none := by
            rw [hbids1]
            exact removeKeyId_eq_none_iff.2 (fun hc => hinvM.2.1.value_ne_of_none hm _ hc rfl)
          have hcancel := map_cancel_lit_bid_none (s.orders ++ [(o.id, o)])
            (emplaceBy bidBefore o.price o.id s.bids) s.asks hlook1 hb hrem
          rw [hplace, hcancel]
          constructor
          · show MapBook.best_from_book (s.orders ++ [(o.id, o)])
                (emplaceBy bidBefore o.price o.id s.bids) = s.best_bid
            rw [hbids1]
            exact best_from_book_append_orders (hinvM.2.1.value_ne_of_none hm)
          · show MapBook.best_from_book (s.orders ++ [(o.id, o)]) s.asks = s.best_ask
            exact best_from_book_append_orders (hinvM.2.2.value_ne_of_none hm)
        · have habs : ∀ j, (o.price, j) ∉ s.bids := fun j hc => hocc ⟨j, hc⟩
          obtain ⟨l1, l2, hsplit, hres, hne1⟩ := @emplaceBy_of_key_absent bidBefore o.price o.id s.bids habs
          have hl1 : ∀ e ∈ l1, ¬(e.1 = o.price ∧ e.2 = o.id) := fun e he hc => hne1 e he hc.1
          have hrem : removeKeyId o.price o.id (emplaceBy bidBefore o.price o.id s.bids) =
              some s.bids := by
            rw [hres, hsplit]
            exact removeKeyId_compute l1 l2 hl1
          have hcancel := map_cancel_lit_bid_some (s.orders ++ [(o.id, o)])
            (emplaceBy bidBefore o.price o.id s.bids) s.asks hlook1 hb hrem
          have hstate : ((s.place o).2.cancel o.id).2 = s := by
            rw [hplace, hcancel]
            show MapBook.mk (eraseStore (s.orders ++ [(o.id, o)]) o.id) s.bids s.asks = s
            rw [eraseStore_append_fresh o hm]
          rw [hstate]
          exact ⟨rfl, rfl⟩
      · have hbf : is_bid o.amount = false := by simpa using hb
        have hplace : (s.place o).2 =
            MapBook.mk (s.orders ++ [(o.id, o)]) s.bids (emplaceBy askBefore o.price o.id s.asks) := by
          rw [MapBook.place_eq, if_neg hg, if_neg hb]
          show MapBook.mk (emplaceStore s.orders o.id o) s.bids
              (emplaceBy askBefore o.price o.id s.asks) = _
          rw [emplaceStore_fresh o hm]
        by_cases hocc : ∃ j, (o.price, j) ∈ s.asks
        · obtain ⟨j0, hj0⟩ := hocc
          have hasks1 : emplaceBy askBefore o.price o.id s.asks = s.asks :=
            emplaceBy_of_key_found askBefore_asym o.id hinvM.2.2.1 hj0
          have hrem : removeKeyId o.price o.id (emplaceBy askBefore o.price o.id s.asks) = none := by
            rw [hasks1]
            exact removeKeyId_eq_none_iff.2 (fun hc => hinvM.2.2.value_ne_of_none hm _ hc rfl)
          have hcancel := map_cancel_lit_ask_none (s.orders ++ [(o.id, o)]) s.bids
            (emplaceBy askBefore o.price o.id s.asks) hlook1 hbf hrem
          rw [hplace, hcancel]
          constructor
          · show MapBook.best_from_book (s.orders ++ [(o.id, o)]) s.bids = s.best_bid
            exact best_from_book_append_orders (hinvM.2.1.value_ne_of_none hm)
          · show MapBook.best_from_book (s.orders ++ [(o.id, o)])
                (emplaceBy askBefore o.price o.id s.asks) = s.best_ask
            rw [hasks1]
            exact best_from_book_append_orders (hinvM.2.2.value_ne_of_none hm)
        · have habs : ∀ j, (o.price, j) ∉ s.asks := fun j hc => hocc ⟨j, hc⟩
          obtain ⟨l1, l2, hsplit, hres, hne1⟩ := @emplaceBy_of_key_absent askBefore o.price o.id s.asks habs
          have hl1 : ∀ e ∈ l1, ¬(e.1 = o.price ∧ e.2 = o.id) := fun e he hc => hne1 e he hc.1
          have hrem : removeKeyId o.price o.id (emplaceBy askBefore o.price o.id s.asks) =
              some s.asks := by
            rw [hres, hsplit]
            exact removeKeyId_compute l1 l2 hl1
          have hcancel := map_cancel_lit_ask_some (s.orders ++ [(o.id, o)]) s.bids
            (emplaceBy askBefore o.price o.id s.asks) hlook1 hbf hrem
          have hstate : ((s.place o).2.cancel o.id).2 = s := by
            rw [hplace, hcancel]
            show MapBook.mk (eraseStore (s.orders ++ [(o.id, o)]) o.id) s.bids s.asks = s
            rw [eraseStore_append_fresh o hm]
          rw [hstate]
          exact ⟨rfl, rfl⟩
  · by_cases h0 : o.amount = 0
    · have hplace : t.place o = (false, t) := by
        simp only [VecBook.place, if_pos (Or.inl h0)]
      have hcancel : t.cancel o.id = (false, t) := by
        simp only [VecBook.cancel, hv]
      have hstate : ((t.place o).2.cancel o.id).2 = t := by
        rw [hplace]
        show (t.cancel o.id).2 = t
        rw [hcancel]
      rw [hstate]
      exact ⟨rfl, rfl⟩
    · have hg : ¬(o.amount = 0 ∨ containsStore t.orders o.id) := by
        intro hg
        rcases hg with hg | hg
        · exact h0 hg
        · rw [containsStore_false_iff.2 hv] at hg
          cases hg
      have hlook1 : lookupStore (t.orders ++ [(o.id, o)]) o.id = some o :=
        lookupStore_append_self o hv
      by_cases hb : is_bid o.amount
      · have hplace : (t.place o).2 =
            VecBook.mk (t.orders ++ [(o.id, o)]) (addLevelBy bidBefore o.price o.id t.bids) t.asks := by
          simp only [VecBook.place, if_neg hg, if_pos hb]
          show VecBook.mk (emplaceStore t.orders o.id o)
              (addLevelBy bidBefore o.price o.id t.bids) t.asks = _
          rw [emplaceStore_fresh o hv]
        have hrem : removeFromLevelsBy bidBefore o.price o.id
            (addLevelBy bidBefore o.price o.id t.bids) = some t.bids := by
          by_cases hocc : ∃ l0 ∈ t.bids, l0.price = o.price
          · obtain ⟨l0, hl0, hp0⟩ := hocc
            obtain ⟨L1, L2, hsplit, hres, hcm⟩ :=
              addLevelBy_split_found bidBefore_asym o.id hinvV.2.1.1 hl0 hp0
            have hfresh0 : o.id ∉ l0.ids := fun hc =>
              hinvV.2.1.id_ne_of_none hv l0 hl0 o.id hc rfl
            have hcomp := @removeFromLevels_compute bidBefore o.price o.id L1
              (l0.ids ++ [o.id]) L2 hcm (bidBefore_irrefl o.price)
            rw [swapRemove_append_fresh hfresh0] at hcomp
            rw [hres, hsplit]
            cases hids : l0.ids with
            | nil => exact absurd hids (hinvV.2.1.2 l0 hl0).1
            | cons a t' =>
              rw [hids] at hcomp
              have hl0eq : l0 = (⟨o.price, a :: t'⟩ : PriceLevel) := by
                rw [← hp0, ← hids]
              rw [hl0eq]
              exact hcomp
          · have habs : ∀ l ∈ t.bids, l.price ≠ o.price := by
              intro l hl hc
              exact hocc ⟨l, hl, hc⟩
            obtain ⟨L1, L2, hsplit, hres, hcm⟩ := @addLevelBy_split_absent bidBefore o.price o.id t.bids habs
            have hcomp := @removeFromLevels_compute bidBefore o.price o.id L1
              [o.id] L2 hcm (bidBefore_irrefl o.price)
            rw [swapRemove_cons_self_nil o.id] at hcomp
            rw [hres, hsplit]
            exact hcomp
        have hcancel := vec_cancel_lit_bid_some (t.orders ++ [(o.id, o)])
          (addLevelBy bidBefore o.price o.id t.bids) t.asks hlook1 hb hrem
        have hstate : ((t.place o).2.cancel o.id).2 = t := by
          rw [hplace, hcancel]
          show VecBook.mk (eraseStore (t.orders ++ [(o.id, o)]) o.id) t.bids t.asks = t
          rw [eraseStore_append_fresh o hv]
        rw [hstate]
        exact ⟨rfl, rfl⟩
      · have hbf : is_bid o.amount = false := by simpa using hb
        have hplace : (t.place o).2 =
            VecBook.mk (t.orders ++ [(o.id, o)]) t.bids (addLevelBy askBefore o.price o.id t.asks) := by
          simp only [VecBook.place, if_neg hg, if_neg hb]
          show VecBook.mk (emplaceStore t.orders o.id o) t.bids
              (addLevelBy askBefore o.price o.id t.asks) = _
          rw [emplaceStore_fresh o hv]
        have hrem : removeFromLevelsBy askBefore o.price o.id
            (addLevelBy askBefore o.price o.id t.asks) = some t.asks := by
          by_cases hocc : ∃ l0 ∈ t.asks, l0.price = o.price
          · obtain ⟨l0, hl0, hp0⟩ := hocc
            obtain ⟨L1, L2, hsplit, hres, hcm⟩ :=
              addLevelBy_split_found askBefore_asym o.id hinvV.2.2.1.1 hl0 hp0
            have hfresh0 : o.id ∉ l0.ids := fun hc =>
              hinvV.2.2.1.id_ne_of_none hv l0 hl0 o.id hc rfl
            have hcomp := @removeFromLevels_compute askBefore o.price o.id L1
              (l0.ids ++ [o.id]) L2 hcm (askBefore_irrefl o.price)
            rw [swapRemove_append_fresh hfresh0] at hcomp
            rw [hres, hsplit]
            cases hids : l0.ids with
            | nil => exact absurd hids (hinvV.2.2.1.2 l0 hl0).1
            | cons a t' =>
              rw [hids] at hcomp
              have hl0eq : l0 = (⟨o.price, a :: t'⟩ : PriceLevel) := by
                rw [← hp0, ← hids]
              rw [hl0eq]
              exact hcomp
          · have habs : ∀ l ∈ t.asks, l.price ≠ o.price := by
              intro l hl hc
              exact hocc ⟨l, hl, hc⟩
            obtain ⟨L1, L2, hsplit, hres, hcm⟩ := @addLevelBy_split_absent askBefore o.price o.id t.asks habs
            have hcomp := @removeFromLevels_compute askBefore o.price o.id L1
              [o.id] L2 hcm (askBefore_irrefl o.price)
            rw [swapRemove_cons_self_nil o.id] at hcomp
            rw [hres, hsplit]
            exact hcomp
        have hcancel := vec_cancel_lit_ask_some (t.orders ++ [(o.id, o)]) t.bids
          (addLevelBy askBefore o.price o.id t.asks) hlook1 hbf hrem
        have hstate : ((t.place o).2.cancel o.id).2 = t := by
          rw [hplace, hcancel]
          show VecBook.mk (eraseStore (t.orders ++ [(o.id, o)]) o.id) t.bids t.asks = t
          rw [eraseStore_append_fresh o hv]
        rw [hstate]
        exact ⟨rfl, rfl⟩

theorem claim_C8_amended_witness :
    (((MapBook.runPlaces [⟨1, 100, 5⟩]).place ⟨2, 101, 3⟩).2.cancel 2).2.best_bid =
      (MapBook.runPlaces [⟨1, 100, 5⟩]).best_bid ∧
    (((VecBook.runPlaces [⟨1, 100, 5⟩]).place ⟨2, 101, 3⟩).2.cancel 2).2.best_bid =
      (VecBook.runPlaces [⟨1, 100, 5⟩]).best_bid := by
  have h := claim_C8_amended (MapBook.runPlaces [⟨1, 100, 5⟩])
    (MapBook.Reachable.step MapBook.empty (BookOp.place ⟨1, 100, 5⟩) MapBook.Reachable.empty)
    (VecBook.runPlaces [⟨1, 100, 5⟩])
    (VecBook.Reachable.step VecBook.empty (BookOp.place ⟨1, 100, 5⟩) VecBook.Reachable.empty)
    ⟨2, 101, 3⟩ (by decide) (by decide)
  exact ⟨h.1.1, h.2.1⟩

end Arena
